import Mathlib

/-!
Verification of the SLTMX-Editor TMX codec and query engine.

The Python source is shallowly embedded: XML element trees become the
inductive `XElem` (ElementTree's `None` text/tail is conflated with the
empty string, which is sound because every read site in the source treats
them identically via truthiness), Python dicts become insertion-ordered
association lists with `dinsert` modelling `d[k] = v` (update in place
keeps the key's position, a new key is appended, exactly Python 3.7+
semantics), and `dget` modelling `d.get(k)`.
-/

/-- Python `d.get(k)`: value at the first matching key, if any. -/
def dget {α : Type} (l : List (String × α)) (k : String) : Option α :=
  (l.find? (fun kv => kv.1 = k)).map (fun kv => kv.2)

/-- Python `d[k] = v` on an insertion-ordered dict: replace in place if the
key exists, otherwise append. -/
def dinsert {α : Type} (l : List (String × α)) (k : String) (v : α) :
    List (String × α) :=
  match l with
  | [] => [(k, v)]
  | (k', v') :: t => if k' = k then (k', v) :: t else (k', v') :: dinsert t k v

/-- An ElementTree element: tag, attributes (insertion-ordered dict),
text, children, tail.  `text`/`tail` use `""` for Python `None`. -/
inductive XElem where
  | mk (tag : String) (attrs : List (String × String)) (text : String)
      (children : List XElem) (tail : String)

def XElem.tag : XElem → String
  | .mk t _ _ _ _ => t

def XElem.attrs : XElem → List (String × String)
  | .mk _ a _ _ _ => a

def XElem.text : XElem → String
  | .mk _ _ x _ _ => x

def XElem.children : XElem → List XElem
  | .mk _ _ _ c _ => c

def XElem.tail : XElem → String
  | .mk _ _ _ _ t => t

/-- ElementTree `e.find(tag)`: first child with the given tag. -/
def XElem.findTag (e : XElem) (t : String) : Option XElem :=
  e.children.find? (fun c => c.tag = t)

/-- ElementTree `e.findall(tag)`: all children with the given tag, in order. -/
def XElem.findAll (e : XElem) (t : String) : List XElem :=
  e.children.filter (fun c => c.tag = t)

/-- A value stored in the loosely-typed header dictionary of the source:
plain attribute strings, the `notes` list, or the `properties` dict
(`tmx_parser.py` `_parse_header` mixes all three in one dict). -/
inductive HVal where
  | str (s : String)
  | notes (ns : List String)
  | props (ps : List (String × String))
deriving DecidableEq

/-- `_parse_variant`'s variant dict (`tmx_parser.py` lines 165-201). -/
structure Variant where
  lang : String
  text : String
  attributes : List (String × String)
  notes : List String
  properties : List (String × String)
deriving DecidableEq

/-- `_parse_single_unit`'s unit dict (`tmx_parser.py` lines 126-163). -/
structure TU where
  tuid : String
  attributes : List (String × String)
  notes : List String
  properties : List (String × String)
  variants : List (String × Variant)
  modified : Bool
deriving DecidableEq

/-- The parsed document: header dict plus ordered unit list
(`parse_tmx_file`'s result; `total_units` is derived as the length). -/
structure TMXDoc where
  header : List (String × HVal)
  units : List TU
deriving DecidableEq

/-- `[note.text for note in e.findall('note') if note.text]`. -/
def noteTexts (e : XElem) : List String :=
  (e.findAll "note").filterMap (fun n => if n.text = "" then none else some n.text)

/-- The `prop`-folding loop shared by header, unit and variant parsing:
`props[prop.get('type','unknown')] = prop.text` for each `prop` child with
non-empty text (the `type` key is read even when the text is empty). -/
def propsDict (e : XElem) : List (String × String) :=
  (e.findAll "prop").foldl
    (fun acc p =>
      if p.text = "" then acc
      else dinsert acc ((dget p.attrs "type").getD "unknown") p.text)
    []

/-- `TMXParser._parse_header` body, given the `<header>` element:
start from `dict(header.attrib)`, then store the note list under key
`"notes"` and the prop dict under key `"properties"` when non-empty. -/
def parseHeaderElem (header : XElem) : List (String × HVal) :=
  let base := header.attrs.map (fun kv => (kv.1, HVal.str kv.2))
  let ns := noteTexts header
  let base2 := if ns = [] then base else dinsert base "notes" (HVal.notes ns)
  let ps := propsDict header
  if ps = [] then base2 else dinsert base2 "properties" (HVal.props ps)

/-- `TMXParser._parse_header` (`tmx_parser.py` lines 65-96). -/
def parseHeaderInfo (root : XElem) : List (String × HVal) :=
  match root.findTag "header" with
  | none => []
  | some h => parseHeaderElem h

/-- Python `str.strip()`: drop leading and trailing whitespace (the ASCII
whitespace characters, the only ones any document here contains). -/
def pyStrip (s : String) : String :=
  String.mk
    (((s.data.dropWhile Char.isWhitespace).reverse.dropWhile
        Char.isWhitespace).reverse)

/-- `TMXParser._extract_text_from_seg` (`tmx_parser.py` lines 203-226):
leading text, then per child a `[tag]` marker for inline-markup tags
followed by the child's text and tail, finally `str.strip()`. -/
def extractTextFromSeg (seg : XElem) : String :=
  pyStrip
    (seg.children.foldl
      (fun acc child =>
        let acc :=
          if ["bpt", "ept", "ph", "it", "hi"].contains child.tag then
            acc ++ "[" ++ child.tag ++ "]"
          else acc
        acc ++ child.text ++ child.tail)
      seg.text)

/-- The namespace-expanded key ElementTree uses for `xml:lang`. -/
def xmlLangKey : String := "{http://www.w3.org/XML/1998/namespace}lang"

/-- `TMXParser._parse_variant` (`tmx_parser.py` lines 165-201).  The
language is `tuv.get('{…}lang') or tuv.get('xml:lang', 'unknown')`
(Python `or` falls through on `None` and on `""`); a `<tuv>` without a
`<seg>` child yields no variant; `attributes` is `dict(tuv.attrib)`. -/
def parseVariant (tuv : XElem) : Option Variant :=
  let lang :=
    match dget tuv.attrs xmlLangKey with
    | some l => if l = "" then (dget tuv.attrs "xml:lang").getD "unknown" else l
    | none => (dget tuv.attrs "xml:lang").getD "unknown"
  match tuv.findTag "seg" with
  | none => none
  | some seg =>
      some { lang := lang
             text := extractTextFromSeg seg
             attributes := tuv.attrs
             notes := noteTexts tuv
             properties := propsDict tuv }

/-- `TMXParser._parse_single_unit` (`tmx_parser.py` lines 126-163). -/
def parseSingleUnit (tu : XElem) : TU :=
  { tuid := (dget tu.attrs "tuid").getD ""
    attributes := tu.attrs
    notes := noteTexts tu
    properties := propsDict tu
    variants :=
      (tu.findAll "tuv").foldl
        (fun acc tuv =>
          match parseVariant tuv with
          | some v => dinsert acc v.lang v
          | none => acc)
        []
    modified := false }

/-- The `<tu>` children of `<body>`, in document order. -/
def tuElems (root : XElem) : List XElem :=
  match root.findTag "body" with
  | none => []
  | some body => body.findAll "tu"

/-- `TMXParser._parse_translation_units` (`tmx_parser.py` lines 98-124),
result list only. -/
def parseTranslationUnits (root : XElem) : List TU :=
  (tuElems root).map parseSingleUnit

/-- `TMXParser.parse_tmx_file` (`tmx_parser.py` lines 40-63) as a pure
function of the XML tree. -/
def parseDoc (root : XElem) : TMXDoc :=
  { header := parseHeaderInfo root, units := parseTranslationUnits root }

/-- Observable events of the parsing loop: a `progress_updated` signal,
or the completion of one unit's parse. -/
inductive PEvent where
  | progress (n : Nat)
  | unitParsed (u : TU)
deriving DecidableEq

/-- Floor of log2 by fuelled halving.  The value itself is always enough
fuel, since `n < 2 ^ n`; see `natLog2`. -/
def log2F : Nat → Nat → Nat
  | 0, _ => 0
  | fuel + 1, n => if n ≤ 1 then 0 else log2F fuel (n / 2) + 1

/-- Floor of the base-2 logarithm of a positive natural. -/
def natLog2 (n : Nat) : Nat := log2F n n

/-- Round the nonnegative rational n/d to the nearest integer, ties to
even — the rounding step of every IEEE-754 binary64 operation. -/
def rne (n d : Nat) : Nat :=
  if 2 * (n % d) < d then n / d
  else if d < 2 * (n % d) then n / d + 1
  else if n / d % 2 = 0 then n / d else n / d + 1

/-- Floor of the base-2 logarithm of the rational a/b (positive a, b). -/
def ratLog2 (a b : Nat) : Int :=
  let L := natLog2 a
  let M := natLog2 b
  if M ≤ L then
    if b * 2 ^ (L - M) ≤ a then ((L - M : Nat) : Int)
    else ((L - M : Nat) : Int) - 1
  else
    if b ≤ a * 2 ^ (M - L) then -((M - L : Nat) : Int)
    else -((M - L : Nat) : Int) - 1

/-- Mantissa and exponent of the IEEE-754 binary64 value nearest to a/b
(positive a, b): the m·2^e with 2^52 ≤ m ≤ 2^53 obtained by rounding a/b
to 53 significant bits, ties to even.  This is exactly CPython's
`int / int` true division, which is correctly rounded for ints of any
size, and — applied to a dyadic input — its float-by-int multiplication;
faithful wherever neither overflow nor subnormals arise, which covers
every value the percent computation can see for any list length CPython
can hold. -/
def flPair (a b : Nat) : Nat × Int :=
  let e : Int := ratLog2 a b - 52
  (rne (a * 2 ^ (-e).toNat) (b * 2 ^ e.toNat), e)

/-- The exact product `(value of p) * 100` as a fraction of naturals: a
binary64 times the int 100 before rounding. -/
def mul100Pair (p : Nat × Int) : Nat × Nat :=
  if 0 ≤ p.2 then (p.1 * 100 * 2 ^ p.2.toNat, 1)
  else (p.1 * 100, 2 ^ (-p.2).toNat)

/-- Truncation toward zero of the nonnegative m·2^e — Python `int()`
applied to a nonnegative float. -/
def floorDy (p : Nat × Int) : Nat :=
  if 0 ≤ p.2 then p.1 * 2 ^ p.2.toNat else p.1 / 2 ^ (-p.2).toNat

/-- The exact rational value of a mantissa-exponent pair. -/
def dyQ (p : Nat × Int) : ℚ := (p.1 : ℚ) * (2 : ℚ) ^ p.2

/-- Python `int((i + 1) / total_units * 100)` exactly as CPython
evaluates it: correctly rounded binary64 division of the two integers,
exact widening of 100, correctly rounded multiplication, truncation
toward zero. -/
def pyPercent (i n : Nat) : Nat :=
  let p1 := flPair (i + 1) n
  let q := mul100Pair p1
  floorDy (flPair q.1 q.2)

/-- The event trace of `_parse_translation_units`'s loop: for the i-th
`<tu>` (0-based) it first emits
`progress_updated(int((i+1)/total_units*100))` — the binary64 value, see
`pyPercent` — and then finishes parsing that unit. -/
def parseUnitsTrace (root : XElem) : List PEvent :=
  let tus := tuElems root
  let n := tus.length
  (tus.enum.map
    (fun p => [PEvent.progress (pyPercent p.1 n),
               PEvent.unitParsed (parseSingleUnit p.2)])).flatten

/-- The `progress_updated` percentages, in emission order. -/
def progressPercents (root : XElem) : List Nat :=
  (parseUnitsTrace root).filterMap
    (fun e => match e with | .progress n => some n | .unitParsed _ => none)

/-- Python `str(value)` as applied by `_create_header`'s attribute loop.
In every document the source ever passes to the writer, a key other than
`"notes"`/`"properties"` (the only keys the loop emits) holds a plain
string, so only the `.str` case is ever exercised; the other two cases
(Python would stringify the list/dict repr) are given a simple stand-in
that no theorem below depends on. -/
def hvalToStr : HVal → String
  | .str s => s
  | .notes ns => String.intercalate ", " ns
  | .props ps => String.intercalate ", " (ps.map (fun kv => kv.1 ++ ": " ++ kv.2))

/-- Python `for note_text in header_info['notes']`: iterating the stored
value.  A `.notes` list yields its entries; a plain string yields its
characters one by one (Python string iteration); a dict yields its keys. -/
def iterNoteVal : HVal → List String
  | .notes ns => ns
  | .str s => s.data.map (fun c => String.mk [c])
  | .props ps => ps.map (fun kv => kv.1)

/-- Python `header_info['properties'].items()`.  On a non-dict value the
source would raise (AttributeError) and the save would fail; that case is
modelled as the empty iteration and is unreachable in documents the
source constructs. -/
def iterPropVal : HVal → List (String × String)
  | .props ps => ps
  | .str _ => []
  | .notes _ => []

/-- `ET.SubElement(parent, 'note')` with `note.text = t`. -/
def mkNoteElem (t : String) : XElem := .mk "note" [] t [] ""

/-- `ET.SubElement(parent, 'prop', type=k)` with `prop.text = v`. -/
def mkPropElem (kv : String × String) : XElem :=
  .mk "prop" [("type", kv.1)] kv.2 [] ""

/-- `TMXWriter._create_header` (`tmx_writer.py` lines 70-95): attributes
from every entry whose key is not `notes`/`properties` (set one by one,
i.e. dict-inserted), then one `<note>` per entry of the `notes` value and
one `<prop>` per entry of the `properties` value. -/
def createHeader (hinfo : List (String × HVal)) : XElem :=
  let attrs := hinfo.foldl
    (fun a kv =>
      if kv.1 = "notes" ∨ kv.1 = "properties" then a
      else dinsert a kv.1 (hvalToStr kv.2))
    []
  let ns := match dget hinfo "notes" with
    | some v => iterNoteVal v
    | none => []
  let ps := match dget hinfo "properties" with
    | some v => iterPropVal v
    | none => []
  .mk "header" attrs "" (ns.map mkNoteElem ++ ps.map mkPropElem) ""

/-- Python `key.startswith('\x7b')`: does the string begin with an opening
brace (the shape of every namespace-qualified ElementTree attribute key)? -/
def startsWithBrace (s : String) : Bool :=
  match s.data with
  | [] => false
  | c :: _ => c = '\x7b'

/-- `TMXWriter._create_variant` (`tmx_writer.py` lines 149-178): sets the
namespace-qualified language attribute from the mapping key, then every
variant attribute whose key does not start with `{`, then a single
`<seg>` holding the flattened text, then notes and props. -/
def createVariant (lang : String) (v : Variant) : XElem :=
  let attrs := v.attributes.foldl
    (fun a kv => if startsWithBrace kv.1 then a else dinsert a kv.1 kv.2)
    [(xmlLangKey, lang)]
  .mk "tuv" attrs ""
    ([XElem.mk "seg" [] v.text [] ""] ++ v.notes.map mkNoteElem
      ++ v.properties.map mkPropElem) ""

/-- `TMXWriter._create_translation_unit` (`tmx_writer.py` lines 116-147):
`tuid` first when non-empty, then the remaining attributes except
`tuid`, then notes, props and one `<tuv>` per variants entry. -/
def createTU (u : TU) : XElem :=
  let attrs := u.attributes.foldl
    (fun a kv => if kv.1 = "tuid" then a else dinsert a kv.1 kv.2)
    (if u.tuid = "" then [] else [("tuid", u.tuid)])
  .mk "tu" attrs ""
    (u.notes.map mkNoteElem ++ u.properties.map mkPropElem
      ++ u.variants.map (fun kv => createVariant kv.1 kv.2)) ""

/-- `TMXWriter.save_to_file`'s tree construction (`tmx_writer.py` lines
24-59 with `_create_root_element`/`_create_body`): a `<tmx version="1.4">`
root holding the header and a `<body>` of the units in order. -/
def writeDoc (d : TMXDoc) : XElem :=
  .mk "tmx" [("version", "1.4")] ""
    [createHeader d.header, .mk "body" [] "" (d.units.map createTU) ""] ""

/-- Python `str.lower()` restricted to the ASCII case mapping (the only
case folding any theorem below exercises). -/
def lowerStr (s : String) : String := String.mk (s.data.map Char.toLower)

/-- Python substring containment `needle in hay`. -/
def strContains (hay needle : String) : Bool :=
  hay.data.tails.any (fun t => needle.data.isPrefixOf t)

/-- `unit['variants'].get(lang, {}).get('text', '')`. -/
def variantTextFor (u : TU) (lang : String) : String :=
  ((dget u.variants lang).map Variant.text).getD ""

/-- The per-unit test of `TMXTableWidget.filter_units` (`table_widget.py`
lines 282-313): both lowered queries must be empty or contained in the
lowered text of the corresponding language's variant. -/
def unitMatches (srcLang tgtLang srcQ tgtQ : String) (u : TU) : Bool :=
  (lowerStr srcQ = "" || strContains (lowerStr (variantTextFor u srcLang)) (lowerStr srcQ))
    && (lowerStr tgtQ = "" || strContains (lowerStr (variantTextFor u tgtLang)) (lowerStr tgtQ))

/-- `TMXTableWidget.filter_units`'s `filtered_units` list. -/
def filterUnits (units : List TU) (srcLang tgtLang srcQ tgtQ : String) :
    List TU :=
  units.filter (unitMatches srcLang tgtLang srcQ tgtQ)

/-- The inclusion condition exactly as the spec words it: `sourceQuery` is
empty OR case-insensitively contained in `variants[sourceLang].text`
(empty string if that language is absent), and likewise for the target. -/
def specIncluded (srcLang tgtLang srcQ tgtQ : String) (u : TU) : Bool :=
  (srcQ = "" || strContains (lowerStr (variantTextFor u srcLang)) (lowerStr srcQ))
    && (tgtQ = "" || strContains (lowerStr (variantTextFor u tgtLang)) (lowerStr tgtQ))

/-- `header.get('srclang', '')` on the mixed-value header dict.  In every
parsed document the `srclang` key (when present) holds a plain string; a
non-string value cannot arise there, so it is read as its stand-in
string. -/
def headerSrclang (header : List (String × HVal)) : String :=
  match dget header "srclang" with
  | some v => hvalToStr v
  | none => ""

/-- `TMXViewer.determine_languages` (`main_window.py` lines 246-271) as a
function of the header, the unit list and the previous values of
`source_lang`/`target_lang` (the source mutates fields that persist
across calls; a fresh window has both equal to `""`). -/
def determineLanguages (header : List (String × HVal)) (units : List TU)
    (src0 tgt0 : String) : String × String :=
  match units with
  | [] => (src0, tgt0)
  | first :: _ =>
    let src1 := headerSrclang header
    let languages := first.variants.map (fun kv => kv.1)
    let src2 :=
      match languages with
      | [] => src1
      | l0 :: _ => if src1 ∈ languages then src1 else l0
    let tgtA := ((languages.find? (fun l => l ≠ src2)).getD tgt0)
    let tgtB :=
      if tgtA = "" then
        match languages with
        | [] => tgtA
        | l0 :: _ => l0
      else tgtA
    (src2, tgtB)

/-- The language rule exactly as the spec words it, for a first unit whose
variant keys are `k0 :: ks`: `srclang` when present and among the keys,
else the first key; target is the first key differing from the source, or
the source itself. -/
def specLanguages (srclang : Option String) (k0 : String) (ks : List String) :
    String × String :=
  let keys := k0 :: ks
  let src :=
    match srclang with
    | some s => if s ∈ keys then s else k0
    | none => k0
  (src, (keys.find? (fun l => l ≠ src)).getD src)

/-- `total_pages = (total_records + page_size - 1) // page_size`. -/
def totalPages (totalRecords pageSize : Nat) : Nat :=
  (totalRecords + pageSize - 1) / pageSize

/-- `TablePagination.go_to_page` (`table_pagination.py` lines 151-168):
with no records the request is ignored and the current page kept;
otherwise `max(0, min(page, total_pages - 1))`. -/
def goToPage (currentPage : Int) (totalRecords pageSize : Nat)
    (page : Int) : Int :=
  if totalRecords = 0 then currentPage
  else max 0 (min page ((totalPages totalRecords pageSize : Int) - 1))

/-- Python list slice `l[start:stop]` for 0 ≤ start, stop. -/
def pySlice {α : Type} (l : List α) (start stop : Nat) : List α :=
  (l.drop start).take (stop - start)

/-- The page computation of `TMXTableWidget.update_table` (`table_widget.py`
lines 320-332): an empty filtered list shows an empty table, otherwise
`filtered_units[start_idx:end_idx]` with `start_idx = page * size` and
`end_idx = min(start_idx + size, len)`. -/
def pageUnits (filtered : List TU) (currentPage pageSize : Nat) : List TU :=
  if filtered = [] then []
  else pySlice filtered (currentPage * pageSize)
    (min (currentPage * pageSize + pageSize) filtered.length)

/-- The effect of `TMXTableWidget.on_item_changed` (`table_widget.py` lines
411-458) on the edited unit, for the language displayed in the edited
column: the text is updated only when that language is a key of
`variants`, and `modified` is set unconditionally.
(`TMXViewer.on_item_modified` repeats the same update on the same unit.) -/
def editVariantText (u : TU) (lang newText : String) : TU :=
  { u with
    variants :=
      u.variants.map
        (fun kv => if kv.1 = lang then (kv.1, { kv.2 with text := newText }) else kv)
    modified := true }

/-- The post-write loop of `TMXViewer.save_tmx_file` (`main_window.py`
lines 300-318): every unit with `modified` set has it cleared. -/
def clearAllModified (units : List TU) : List TU :=
  units.map (fun u => { u with modified := false })

/-- `save_tmx_file` on success: the writer serializes the document (a pure
function of it), then the caller clears every `modified` flag. -/
def saveTmxFile (d : TMXDoc) : XElem × TMXDoc :=
  (writeDoc d, { d with units := clearAllModified d.units })

/-- `round(100 * processed / N)` exactly as the claim states it, on exact
rationals, with Python's round-half-to-even tie rule. -/
def specRound (num den : Nat) : Nat :=
  if 2 * (num % den) < den then num / den
  else if den < 2 * (num % den) then num / den + 1
  else if num / den % 2 = 0 then num / den else num / den + 1

/-- A variant as the parser itself produces it and the in-place editor
leaves it: the mapping key equals the stored language, the language is
non-empty, the text carries no leading/trailing whitespace, the attribute
dict starts with the namespace-qualified language attribute followed by
non-namespaced, duplicate-free keys, and notes/property values are
non-empty with duplicate-free property keys. -/
def CanonVariant (lang : String) (v : Variant) : Prop :=
  v.lang = lang ∧ v.lang ≠ "" ∧ pyStrip v.text = v.text ∧
  v.attributes.head? = some (xmlLangKey, v.lang) ∧
  (∀ kv ∈ v.attributes.tail, startsWithBrace kv.1 = false) ∧
  (v.attributes.tail.map (fun kv => kv.1)).Nodup ∧
  (∀ x ∈ v.notes, x ≠ "") ∧
  (v.properties.map (fun kv => kv.1)).Nodup ∧
  (∀ kv ∈ v.properties, kv.2 ≠ "")

instance (lang : String) (v : Variant) : Decidable (CanonVariant lang v) := by
  unfold CanonVariant; infer_instance

/-- A translation unit as the parser produces it (after the caller's
clear-modified step): `modified` is down, the attribute dict is
duplicate-free and consistent with `tuid` (leading `tuid` entry exactly
when `tuid` is non-empty), notes and property values are non-empty, and
every variants entry is canonical under its key. -/
def CanonTU (u : TU) : Prop :=
  u.modified = false ∧
  (u.attributes.map (fun kv => kv.1)).Nodup ∧
  (if u.tuid = "" then ∀ kv ∈ u.attributes, kv.1 ≠ "tuid"
   else u.attributes.head? = some ("tuid", u.tuid)) ∧
  (∀ x ∈ u.notes, x ≠ "") ∧
  (u.properties.map (fun kv => kv.1)).Nodup ∧
  (∀ kv ∈ u.properties, kv.2 ≠ "") ∧
  (u.variants.map (fun kv => kv.1)).Nodup ∧
  (∀ kv ∈ u.variants, CanonVariant kv.1 kv.2)

instance (u : TU) : Decidable (CanonTU u) := by
  unfold CanonTU; infer_instance

/-- A header dict as the parser produces it: plain string attributes on
keys other than `notes`/`properties` first, then the optional `notes`
list (non-empty entries) and the optional `properties` dict (non-empty
values, duplicate-free keys). -/
def CanonHeader (h : List (String × HVal)) : Prop :=
  ∃ (strs : List (String × String)) (ns : List String)
    (ps : List (String × String)),
    h = strs.map (fun kv => (kv.1, HVal.str kv.2))
      ++ (if ns = ([] : List String) then [] else [("notes", HVal.notes ns)])
      ++ (if ps = ([] : List (String × String)) then []
          else [("properties", HVal.props ps)]) ∧
    (∀ kv ∈ strs, kv.1 ≠ "notes" ∧ kv.1 ≠ "properties") ∧
    (strs.map (fun kv => kv.1)).Nodup ∧
    (∀ x ∈ ns, x ≠ "") ∧
    (ps.map (fun kv => kv.1)).Nodup ∧
    (∀ kv ∈ ps, kv.2 ≠ "")

/-- A document in the image of parse∘clear-modified: exactly the state the
editor holds between a successful open (or save) and the next edit. -/
def CanonDoc (d : TMXDoc) : Prop :=
  CanonHeader d.header ∧ ∀ u ∈ d.units, CanonTU u

/-- A `<tuv lang><seg>text</seg></tuv>` element. -/
def simpleTuv (lang txt : String) : XElem :=
  .mk "tuv" [(xmlLangKey, lang)] "" [.mk "seg" [] txt [] ""] ""

/-- A `<tu>` element holding one simple `<tuv>` per pair. -/
def simpleTu (vs : List (String × String)) : XElem :=
  .mk "tu" [] "" (vs.map (fun p => simpleTuv p.1 p.2)) ""

/-- The `<seg>` of the spec's flatten example:
`<seg>Hello <bpt>1</bpt>world<ept/></seg>`. -/
def c3Seg : XElem :=
  .mk "seg" [] "Hello "
    [.mk "bpt" [] "1" [] "world", .mk "ept" [] "" [] ""] ""

/-- A three-unit TMX tree, used to exercise the progress sequence. -/
def c2Root : XElem :=
  .mk "tmx" [("version", "1.4")] ""
    [.mk "header" [] "" [] "",
     .mk "body" [] ""
       [simpleTu [("en", "a")], simpleTu [("en", "b")], simpleTu [("en", "c")]]
       ""] ""

/-- A `<tuv>` carrying the namespace-qualified language attribute plus one
plain attribute. -/
def c4Tuv : XElem :=
  .mk "tuv" [(xmlLangKey, "en"), ("creationdate", "20240101")] ""
    [.mk "seg" [] "hello" [] ""] ""

/-- The variant `_parse_variant` produces from `c4Tuv`. -/
def c4Var : Variant :=
  { lang := "en"
    text := "hello"
    attributes := [(xmlLangKey, "en"), ("creationdate", "20240101")]
    notes := []
    properties := [] }

/-- A variant with the given language and empty metadata. -/
def blankVariant (lang : String) : Variant :=
  { lang := lang, text := "", attributes := [(xmlLangKey, lang)]
    notes := [], properties := [] }

/-- A unit with no metadata and no variants. -/
def blankTU : TU :=
  { tuid := "", attributes := [], notes := [], properties := []
    variants := [], modified := false }

/-- A one-unit document whose unit has `modified` raised. -/
def editedDoc : TMXDoc :=
  { header := [], units := [{ blankTU with modified := true }] }

/-- A header dict with `srclang="en"`. -/
def c6Header : List (String × HVal) := [("srclang", HVal.str "en")]

/-- A unit holding `en` and `fr` variants. -/
def c6Unit : TU :=
  { blankTU with variants := [("en", blankVariant "en"), ("fr", blankVariant "fr")] }

/-- A unit holding only an `en` variant. -/
def c10Unit : TU :=
  { blankTU with variants := [("en", blankVariant "en")] }

/-- A `<header>` carrying literal `notes` and `properties` attributes next
to a non-empty `<note>` and `<prop>` child. -/
def c9Header : XElem :=
  .mk "header" [("notes", "attr-note-value"), ("properties", "attr-prop-value"), ("srclang", "en")] ""
    [.mk "note" [] "a" [] "", .mk "prop" [("type", "t")] "v" [] ""] ""

/-- A document whose only variant text carries a trailing blank — no
inline markup anywhere, yet parse∘write strips the blank. -/
def c1CexDoc : TMXDoc :=
  { header := []
    units := [{ blankTU with
                variants := [("en", { blankVariant "en" with text := "x " })] }] }

/-- A small canonical document: header attribute, header note and prop,
one unit with id, attribute, note, prop and two variants. -/
def canonDocEx : TMXDoc :=
  { header := [("srclang", HVal.str "en"), ("notes", HVal.notes ["note one"]),
               ("properties", HVal.props [("creator", "me")])]
    units := [{ tuid := "t1"
                attributes := [("tuid", "t1"), ("usagecount", "3")]
                notes := ["unit note"]
                properties := [("domain", "law")]
                variants :=
                  [("en", { lang := "en", text := "hello"
                            attributes := [(xmlLangKey, "en"), ("creationdate", "2024")]
                            notes := ["vn"], properties := [("p", "q")] }),
                   ("fr", { lang := "fr", text := "bonjour"
                            attributes := [(xmlLangKey, "fr")]
                            notes := [], properties := [] })]
                modified := false }] }

theorem dget_cons_self {α : Type} (l : List (String × α)) (k : String) (v : α) :
    dget ((k, v) :: l) k = some v := by
  simp [dget]

theorem dget_cons_ne {α : Type} (l : List (String × α)) (k k' : String) (v : α)
    (h : k' ≠ k) : dget ((k', v) :: l) k = dget l k := by
  simp [dget, List.find?_cons_of_neg, h]

theorem dget_eq_none {α : Type} (l : List (String × α)) (k : String)
    (h : ∀ kv ∈ l, kv.1 ≠ k) : dget l k = none := by
  have : l.find? (fun kv => kv.1 = k) = none := by
    rw [List.find?_eq_none]
    intro kv hkv
    simp [h kv hkv]
  simp [dget, this]

theorem dget_append_left {α : Type} (l₁ l₂ : List (String × α)) (k : String)
    (v : α) (h : dget l₁ k = some v) : dget (l₁ ++ l₂) k = some v := by
  simp only [dget, List.find?_append] at h ⊢
  cases hf : l₁.find? (fun kv => kv.1 = k) with
  | none => rw [hf] at h; simp at h
  | some kv => rw [hf] at h; simpa using h

theorem dget_append_right {α : Type} (l₁ l₂ : List (String × α)) (k : String)
    (h : ∀ kv ∈ l₁, kv.1 ≠ k) : dget (l₁ ++ l₂) k = dget l₂ k := by
  have : l₁.find? (fun kv => kv.1 = k) = none := by
    rw [List.find?_eq_none]; intro kv hkv; simp [h kv hkv]
  simp [dget, List.find?_append, this]

theorem dinsert_eq_append {α : Type} (l : List (String × α)) (k : String)
    (v : α) (h : ∀ kv ∈ l, kv.1 ≠ k) : dinsert l k v = l ++ [(k, v)] := by
  induction l with
  | nil => rfl
  | cons kv t ih =>
      have hk : kv.1 ≠ k := h kv (by simp)
      cases kv with
      | mk k' v' =>
          simp only [dinsert, if_neg hk, List.cons_append, List.cons.injEq, true_and]
          exact ih (fun kv hkv => h kv (by simp [hkv]))

theorem mem_dinsert {α : Type} (l : List (String × α)) (k : String) (v : α) :
    ∀ kv ∈ dinsert l k v, kv ∈ l ∨ kv.1 = k := by
  induction l with
  | nil => intro kv hkv; simp only [dinsert, List.mem_singleton] at hkv; simp [hkv]
  | cons kv' t ih =>
      intro kv hkv
      cases kv' with
      | mk k' v' =>
          by_cases hk : k' = k
          · simp only [dinsert, if_pos hk] at hkv
            rcases List.mem_cons.mp hkv with h | h
            · right; rw [h, hk]
            · left; exact List.mem_cons_of_mem _ h
          · simp only [dinsert, if_neg hk] at hkv
            rcases List.mem_cons.mp hkv with h | h
            · left; simp [h]
            · rcases ih kv h with h' | h'
              · left; exact List.mem_cons_of_mem _ h'
              · right; exact h'

/-- C3 counterexample: on the spec's own example `<seg>`, the flattening
routine does not return the string the spec claims — the `<ept/>` child
also contributes its `[ept]` marker. -/
theorem flatten_example_cex :
    extractTextFromSeg c3Seg ≠ "Hello [bpt]1world" := by decide

/-- C3 (amended): flattening `<seg>Hello <bpt>1</bpt>world<ept/></seg>`
yields exactly `"Hello [bpt]1world[ept]"` — every inline-markup child
contributes its bracketed marker, the `<ept/>` included. -/
theorem flatten_example_amended :
    extractTextFromSeg c3Seg = "Hello [bpt]1world[ept]" := by decide

/-- C4 counterexample: for a `<tuv>` carrying the namespace-qualified
language attribute plus a plain one, the parsed variant's attribute dict
is not the claimed "all attributes except namespace-qualified ones" — it
still contains the namespace-qualified language attribute itself. -/
theorem variant_attributes_cex :
    (parseVariant c4Tuv).map Variant.attributes
      ≠ some (c4Tuv.attrs.filter (fun kv => !startsWithBrace kv.1)) ∧
    (xmlLangKey, "en") ∈ ((parseVariant c4Tuv).map Variant.attributes).getD [] := by
  decide

/-- C4 (amended): the parser copies every `<tuv>` attribute into the
variant, the namespace-qualified language attribute included; only the
writer drops namespace-qualified keys when re-emitting. -/
theorem variant_attributes_amended (tuv : XElem) (v : Variant)
    (h : parseVariant tuv = some v) : v.attributes = tuv.attrs := by
  unfold parseVariant at h
  cases hs : tuv.findTag "seg" with
  | none => rw [hs] at h; simp at h
  | some seg =>
      rw [hs] at h
      simp only [Option.some.injEq] at h
      rw [← h]

/-- C4 witness: the amended statement at the concrete `<tuv>` above. -/
theorem variant_attributes_amended_witness : c4Var.attributes = c4Tuv.attrs :=
  variant_attributes_amended c4Tuv c4Var (by decide)

/-- C10: an edit routed to a unit whose variants lack the displayed
language leaves the variants mapping (hence every variant's text)
untouched and creates nothing, yet still raises the unit's `modified`
flag. -/
theorem edit_missing_language_spec (u : TU) (lang t : String)
    (h : ∀ kv ∈ u.variants, kv.1 ≠ lang) :
    (editVariantText u lang t).variants = u.variants ∧
    (editVariantText u lang t).modified = true := by
  constructor
  · simp only [editVariantText]
    conv_rhs => rw [← List.map_id u.variants]
    exact List.map_congr_left (fun kv hkv => by simp [h kv hkv])
  · rfl

/-- C10 witness: editing the absent `fr` column of a unit holding only an
`en` variant. -/
theorem edit_missing_language_spec_witness :
    (editVariantText c10Unit "fr" "new").variants = c10Unit.variants ∧
    (editVariantText c10Unit "fr" "new").modified = true :=
  edit_missing_language_spec c10Unit "fr" "new" (by decide)

/-- C8: editing a variant's text raises the owning unit's `modified`
flag; a successful save serializes the document as a pure function of it
(the writer mutates nothing) and then the caller's clear step lowers
every unit's `modified` flag, leaving every other field of every unit and
the header untouched. -/
theorem modification_tracking_spec :
    (∀ (u : TU) (lang t : String), (editVariantText u lang t).modified = true) ∧
    (∀ d : TMXDoc,
      (saveTmxFile d).1 = writeDoc d ∧
      (saveTmxFile d).2.header = d.header ∧
      (∀ u ∈ (saveTmxFile d).2.units, u.modified = false) ∧
      (saveTmxFile d).2.units.map TU.tuid = d.units.map TU.tuid ∧
      (saveTmxFile d).2.units.map TU.attributes = d.units.map TU.attributes ∧
      (saveTmxFile d).2.units.map TU.notes = d.units.map TU.notes ∧
      (saveTmxFile d).2.units.map TU.properties = d.units.map TU.properties ∧
      (saveTmxFile d).2.units.map TU.variants = d.units.map TU.variants) := by
  refine ⟨fun u lang t => rfl, fun d => ⟨rfl, rfl, ?_, ?_, ?_, ?_, ?_, ?_⟩⟩
  · intro u hu
    simp only [saveTmxFile, clearAllModified, List.mem_map] at hu
    obtain ⟨u', _, rfl⟩ := hu
    rfl
  all_goals simp [saveTmxFile, clearAllModified, List.map_map, Function.comp]

/-- C8 witness: a concrete edit raises the flag, and the unit of a
one-unit modified document is clean after save-and-clear. -/
theorem modification_tracking_spec_witness :
    (editVariantText blankTU "en" "x").modified = true ∧
    blankTU.modified = false :=
  ⟨modification_tracking_spec.1 blankTU "en" "x",
   (modification_tracking_spec.2 editedDoc).2.2.1 blankTU (by decide)⟩

theorem lowerStr_eq_empty (s : String) : lowerStr s = "" ↔ s = "" := by
  constructor
  · intro h
    have hdata := congrArg String.data h
    simp only [lowerStr] at hdata
    have hd : s.data = [] := List.map_eq_nil_iff.mp hdata
    exact String.ext (hd.trans rfl)
  · intro h; subst h; rfl

/-- C5: the filter returns exactly the units satisfying the spec's
inclusion condition, as an order-preserving subsequence, and empty
queries return every unit. -/
theorem filter_units_spec (units : List TU) (srcLang tgtLang srcQ tgtQ : String) :
    filterUnits units srcLang tgtLang srcQ tgtQ
      = units.filter (specIncluded srcLang tgtLang srcQ tgtQ) ∧
    (filterUnits units srcLang tgtLang srcQ tgtQ).Sublist units ∧
    filterUnits units srcLang tgtLang "" "" = units := by
  refine ⟨?_, List.filter_sublist _, ?_⟩
  · unfold filterUnits
    apply List.filter_congr
    intro u _
    unfold unitMatches specIncluded
    rw [show (decide (lowerStr srcQ = "")) = decide (srcQ = "") by
          simp [decide_eq_decide, lowerStr_eq_empty],
        show (decide (lowerStr tgtQ = "")) = decide (tgtQ = "") by
          simp [decide_eq_decide, lowerStr_eq_empty]]
  · unfold filterUnits
    rw [List.filter_eq_self]
    intro u _
    unfold unitMatches
    rw [show lowerStr "" = "" from rfl]
    simp

theorem one_le_totalPages (total size : Nat) (h0 : total ≠ 0) (hs : 0 < size) :
    1 ≤ totalPages total size := by
  unfold totalPages
  rw [Nat.le_div_iff_mul_le hs]
  omega

/-- C7: `go_to_page` clamps the requested index into
`[0, ceil(len/size) - 1]` (an in-range request is honoured verbatim, and
with no records the caller-maintained page 0 is kept); the displayed page
is exactly the slice `filtered[page*size : min(len, (page+1)*size)]`; and
on 250 units with page size 100 the three pages hold 100, 100 and 50
units while a request for page 5 clamps to 2. -/
theorem pagination_spec (current page : Int) (total size : Nat)
    (hsize : 0 < size) :
    (total = 0 → current = 0 → goToPage current total size page = 0) ∧
    (total ≠ 0 →
      0 ≤ goToPage current total size page ∧
      goToPage current total size page ≤ (totalPages total size : Int) - 1 ∧
      (0 ≤ page → page ≤ (totalPages total size : Int) - 1 →
        goToPage current total size page = page)) ∧
    (∀ (filtered : List TU) (p s : Nat),
      pageUnits filtered p s
        = pySlice filtered (p * s) (min filtered.length ((p + 1) * s))) ∧
    (pageUnits (List.replicate 250 blankTU) 0 100).length = 100 ∧
    (pageUnits (List.replicate 250 blankTU) 1 100).length = 100 ∧
    (pageUnits (List.replicate 250 blankTU) 2 100).length = 50 ∧
    goToPage 0 250 100 5 = 2 := by
  have hrep : List.replicate 250 blankTU ≠ [] := by
    intro h
    have hl := congrArg List.length h
    rw [List.length_replicate, List.length_nil] at hl
    omega
  have hlen : ∀ p s : Nat, (pageUnits (List.replicate 250 blankTU) p s).length
      = min (min (p * s + s) 250 - p * s) (250 - p * s) := by
    intro p s
    simp only [pageUnits]
    rw [if_neg hrep]
    simp only [pySlice, List.length_take, List.length_drop, List.length_replicate]
  refine ⟨?_, ?_, ?_, by rw [hlen]; omega, by rw [hlen]; omega,
    by rw [hlen]; omega, by decide⟩
  · intro h0 hc; simp [goToPage, h0, hc]
  · intro h0
    have h1 : 1 ≤ totalPages total size := one_le_totalPages total size h0 hsize
    unfold goToPage
    rw [if_neg h0]
    refine ⟨le_max_left _ _, ?_, ?_⟩
    · apply max_le
      · omega
      · exact min_le_right _ _
    · intro hp1 hp2
      rw [min_eq_left hp2, max_eq_right hp1]
  · intro filtered p s
    unfold pageUnits
    by_cases hf : filtered = []
    · subst hf; simp [pySlice]
    · rw [if_neg hf]
      unfold pySlice
      have hps : (p + 1) * s = p * s + s := by ring
      rw [hps]
      congr 1
      omega

/-- C7 witness: the concrete clamp from the claim. -/
theorem pagination_spec_witness : goToPage 0 250 100 5 = 2 :=
  (pagination_spec 0 5 250 100 (by decide)).2.2.2.2.2.2

theorem dinsert_cons_self {α : Type} (t : List (String × α)) (k : String)
    (v v' : α) : dinsert ((k, v') :: t) k v = (k, v) :: t := by
  simp [dinsert]

theorem dinsert_cons_ne {α : Type} (t : List (String × α)) (k k' : String)
    (v v' : α) (h : k' ≠ k) :
    dinsert ((k', v') :: t) k v = (k', v') :: dinsert t k v := by
  simp [dinsert, h]

theorem dget_dinsert_self {α : Type} (l : List (String × α)) (k : String)
    (v : α) : dget (dinsert l k v) k = some v := by
  induction l with
  | nil => simp [dinsert, dget]
  | cons kv t ih =>
      cases kv with
      | mk k' v' =>
          by_cases h : k' = k
          · subst h
            rw [dinsert_cons_self, dget_cons_self]
          · rw [dinsert_cons_ne _ _ _ _ _ h, dget_cons_ne _ _ _ _ h]
            exact ih

theorem dget_dinsert_ne {α : Type} (l : List (String × α)) (k k' : String)
    (v : α) (h : k' ≠ k) : dget (dinsert l k' v) k = dget l k := by
  induction l with
  | nil =>
      rw [show dinsert ([] : List (String × α)) k' v = [(k', v)] from rfl,
          dget_cons_ne _ _ _ _ h]
  | cons kv t ih =>
      cases kv with
      | mk k0 v0 =>
          by_cases h0 : k0 = k'
          · subst h0
            rw [dinsert_cons_self, dget_cons_ne _ _ _ _ h, dget_cons_ne _ _ _ _ h]
          · rw [dinsert_cons_ne _ _ _ _ _ h0]
            by_cases hk : k0 = k
            · subst hk; rw [dget_cons_self, dget_cons_self]
            · rw [dget_cons_ne _ _ _ _ hk, dget_cons_ne _ _ _ _ hk, ih]

theorem createHeader_attr_keys (hinfo : List (String × HVal)) :
    ∀ kv ∈ (createHeader hinfo).attrs, kv.1 ≠ "notes" ∧ kv.1 ≠ "properties" := by
  suffices h : ∀ (l : List (String × HVal)) (acc : List (String × String)),
      (∀ kv ∈ acc, kv.1 ≠ "notes" ∧ kv.1 ≠ "properties") →
      ∀ kv ∈ l.foldl
        (fun a kv =>
          if kv.1 = "notes" ∨ kv.1 = "properties" then a
          else dinsert a kv.1 (hvalToStr kv.2)) acc,
        kv.1 ≠ "notes" ∧ kv.1 ≠ "properties" by
    intro kv hkv
    simp only [createHeader, XElem.attrs] at hkv
    exact h hinfo [] (by simp) kv hkv
  intro l
  induction l with
  | nil => intro acc hacc kv hkv; exact hacc kv hkv
  | cons x t ih =>
      intro acc hacc kv hkv
      simp only [List.foldl_cons] at hkv
      by_cases hx : x.1 = "notes" ∨ x.1 = "properties"
      · rw [if_pos hx] at hkv; exact ih acc hacc kv hkv
      · rw [if_neg hx] at hkv
        refine ih _ ?_ kv hkv
        intro kv' hkv'
        rcases mem_dinsert acc x.1 (hvalToStr x.2) kv' hkv' with h' | h'
        · exact hacc kv' h'
        · push_neg at hx; rw [h']; exact hx

/-- C9: when `<header>` carries a literal `notes` (resp. `properties`)
attribute and also holds a non-empty `<note>` (resp. `<prop>`) child, the
parsed header dict stores the note list (resp. prop dict) under that same
key — the attribute's string value is gone from the model — and the
writer never re-emits a `notes`/`properties` header attribute. -/
theorem header_key_collision_spec (he : XElem) :
    ((dget he.attrs "notes").isSome = true → noteTexts he ≠ [] →
      dget (parseHeaderElem he) "notes" = some (HVal.notes (noteTexts he)) ∧
      ∀ kv ∈ (createHeader (parseHeaderElem he)).attrs, kv.1 ≠ "notes") ∧
    ((dget he.attrs "properties").isSome = true → propsDict he ≠ [] →
      dget (parseHeaderElem he) "properties" = some (HVal.props (propsDict he)) ∧
      ∀ kv ∈ (createHeader (parseHeaderElem he)).attrs, kv.1 ≠ "properties") := by
  constructor
  · intro _ hns
    refine ⟨?_, fun kv hkv => (createHeader_attr_keys _ kv hkv).1⟩
    simp only [parseHeaderElem]
    rw [if_neg hns]
    by_cases hps : propsDict he = []
    · rw [if_pos hps]
      exact dget_dinsert_self _ _ _
    · rw [if_neg hps,
          dget_dinsert_ne _ _ _ _ (by decide : "properties" ≠ "notes")]
      exact dget_dinsert_self _ _ _
  · intro _ hps
    refine ⟨?_, fun kv hkv => (createHeader_attr_keys _ kv hkv).2⟩
    simp only [parseHeaderElem]
    rw [if_neg hps]
    exact dget_dinsert_self _ _ _

/-- C9 witness: the concrete colliding header. -/
theorem header_key_collision_spec_witness :
    dget (parseHeaderElem c9Header) "notes" = some (HVal.notes ["a"]) ∧
    dget (parseHeaderElem c9Header) "properties" = some (HVal.props [("t", "v")]) := by
  have h1 := ((header_key_collision_spec c9Header).1 (by decide) (by decide)).1
  have h2 := ((header_key_collision_spec c9Header).2 (by decide) (by decide)).1
  rw [h1, h2]
  exact ⟨by decide, by decide⟩

theorem find_target_getD (k0 : String) (ks : List String) (src : String)
    (hne : ∀ k ∈ k0 :: ks, k ≠ "") :
    (if ((k0 :: ks).find? (fun l => l ≠ src)).getD "" = "" then k0
     else ((k0 :: ks).find? (fun l => l ≠ src)).getD "")
      = ((k0 :: ks).find? (fun l => l ≠ src)).getD src := by
  cases hf : (k0 :: ks).find? (fun l => l ≠ src) with
  | none =>
      have hk0 : k0 = src := by
        have h1 := List.find?_eq_none.mp hf k0 (by simp)
        simpa using h1
      simp [hk0]
  | some l =>
      have hl : l ≠ "" := hne l (List.mem_of_find?_eq_some hf)
      simp [Option.getD, hl]

/-- C6: on a fresh window, for a parsed document whose first unit's
variant keys are `k0 :: ks` (all non-empty, as parsing guarantees),
`determine_languages` computes exactly the spec's rule: `srclang` when it
is a key of the first unit's variants, else the first key; the target is
the first key differing from the source, or the source itself; with zero
units both stay empty. -/
theorem determine_languages_spec (header : List (String × HVal)) (u : TU)
    (rest : List TU) (k0 : String) (ks : List String)
    (hkeys : u.variants.map (fun kv => kv.1) = k0 :: ks)
    (hne : ∀ k ∈ u.variants.map (fun kv => kv.1), k ≠ "") :
    determineLanguages header (u :: rest) "" ""
      = specLanguages ((dget header "srclang").map hvalToStr) k0 ks ∧
    determineLanguages header [] "" "" = ("", "") := by
  refine ⟨?_, rfl⟩
  rw [hkeys] at hne
  simp only [determineLanguages, specLanguages, hkeys]
  have hsrc : (if headerSrclang header ∈ k0 :: ks then headerSrclang header else k0)
      = (match Option.map hvalToStr (dget header "srclang") with
         | some s => if s ∈ k0 :: ks then s else k0
         | none => k0) := by
    cases hd : dget header "srclang" with
    | none =>
        have h0 : headerSrclang header = "" := by simp [headerSrclang, hd]
        rw [h0]
        have hni : ("" : String) ∉ k0 :: ks := by
          intro hmem
          exact hne "" hmem rfl
        simp [hd, hni]
    | some v =>
        have h0 : headerSrclang header = hvalToStr v := by simp [headerSrclang, hd]
        rw [h0]
        simp [hd]
  rw [hsrc, Prod.mk.injEq]
  refine ⟨rfl, ?_⟩
  exact find_target_getD k0 ks _ hne

/-- C6 witness: `srclang="en"` with first-unit variants `en, fr` gives the
pair `("en", "fr")`. -/
theorem determine_languages_spec_witness :
    determineLanguages c6Header [c6Unit] "" "" = ("en", "fr") := by
  have h := (determine_languages_spec c6Header c6Unit [] "en" ["fr"]
    (by decide) (by decide)).1
  rw [h]
  decide


theorem log2F_spec (fuel : Nat) : ∀ n, 0 < n → n < 2 ^ fuel →
    2 ^ log2F fuel n ≤ n ∧ n < 2 ^ (log2F fuel n + 1) := by
  induction fuel with
  | zero => intro n h1 h2; simp at h2; omega
  | succ f ih =>
      intro n hn hf
      by_cases h1 : n ≤ 1
      · have hn1 : n = 1 := by omega
        subst hn1
        simp [log2F]
      · have hrec := ih (n / 2) (by omega) (by rw [pow_succ] at hf; omega)
        simp only [log2F, if_neg h1]
        simp only [pow_succ] at hrec ⊢
        omega

theorem natLog2_spec (n : Nat) (hn : 0 < n) :
    2 ^ natLog2 n ≤ n ∧ n < 2 ^ (natLog2 n + 1) :=
  log2F_spec n n hn (Nat.lt_two_pow n)

theorem rne_eq (d q r : Nat) (hd : 0 < d) (hr : r < d) :
    rne (d * q + r) d
      = if 2 * r < d then q else if d < 2 * r then q + 1
        else if q % 2 = 0 then q else q + 1 := by
  unfold rne
  rw [Nat.mul_add_div hd, Nat.div_eq_of_lt hr, Nat.mul_add_mod,
      Nat.mod_eq_of_lt hr, Nat.add_zero]

theorem rne_close₁ (n d : Nat) (hd : 0 < d) : 2 * rne n d * d ≤ 2 * n + d := by
  obtain ⟨q, r, rfl, hr⟩ : ∃ q r, n = d * q + r ∧ r < d :=
    ⟨n / d, n % d, (Nat.div_add_mod n d).symm, Nat.mod_lt n hd⟩
  rw [rne_eq d q r hd hr]
  split_ifs with h1 h2 h3 <;> nlinarith

theorem rne_close₂ (n d : Nat) (hd : 0 < d) : 2 * n ≤ 2 * rne n d * d + d := by
  obtain ⟨q, r, rfl, hr⟩ : ∃ q r, n = d * q + r ∧ r < d :=
    ⟨n / d, n % d, (Nat.div_add_mod n d).symm, Nat.mod_lt n hd⟩
  rw [rne_eq d q r hd hr]
  split_ifs with h1 h2 h3 <;> nlinarith

theorem rne_mono (n₁ d₁ n₂ d₂ : Nat) (hd₁ : 0 < d₁) (hd₂ : 0 < d₂)
    (h : n₁ * d₂ ≤ n₂ * d₁) : rne n₁ d₁ ≤ rne n₂ d₂ := by
  by_contra hlt
  push_neg at hlt
  obtain ⟨A', hA, hB⟩ : ∃ A', rne n₁ d₁ = A' + 1 ∧ rne n₂ d₂ ≤ A' :=
    ⟨rne n₁ d₁ - 1, by omega, by omega⟩
  have c1 := rne_close₁ n₁ d₁ hd₁
  have c2 := rne_close₂ n₂ d₂ hd₂
  rw [hA] at c1
  -- squeeze: all the inequalities below are in fact equalities
  have t3 : 2 * (A' + 1) * d₁ * d₂ ≤ (2 * n₁ + d₁) * d₂ :=
    Nat.mul_le_mul_right d₂ c1
  have t1 : 2 * n₂ * d₁ ≤ (2 * rne n₂ d₂ * d₂ + d₂) * d₁ :=
    Nat.mul_le_mul_right d₁ c2
  have t2 : (2 * rne n₂ d₂ * d₂ + d₂) * d₁ ≤ (2 * A' * d₂ + d₂) * d₁ :=
    Nat.mul_le_mul_right d₁ (by nlinarith)
  have t4 : 2 * (n₁ * d₂) ≤ 2 * (n₂ * d₁) := by omega
  have q1 : 2 * n₁ = 2 * (A' * d₁) + d₁ :=
    Nat.eq_of_mul_eq_mul_right hd₂
      (show (2 * n₁) * d₂ = (2 * (A' * d₁) + d₁) * d₂ by nlinarith)
  have q2 : 2 * n₂ = 2 * (A' * d₂) + d₂ :=
    Nat.eq_of_mul_eq_mul_right hd₁
      (show (2 * n₂) * d₁ = (2 * (A' * d₂) + d₂) * d₁ by nlinarith)
  -- both sides sit exactly on a tie
  obtain ⟨c₁, hc₁, hn₁⟩ : ∃ c, 2 * c = d₁ ∧ n₁ = A' * d₁ + c := by
    refine ⟨d₁ / 2, ?_, ?_⟩ <;>
      · generalize hY : A' * d₁ = Y at q1 ⊢
        omega
  obtain ⟨c₂, hc₂, hn₂⟩ : ∃ c, 2 * c = d₂ ∧ n₂ = A' * d₂ + c := by
    refine ⟨d₂ / 2, ?_, ?_⟩ <;>
      · generalize hY : A' * d₂ = Y at q2 ⊢
        omega
  rw [Nat.mul_comm A' d₁] at hn₁
  rw [Nat.mul_comm A' d₂] at hn₂
  have e1 : rne n₁ d₁ = if A' % 2 = 0 then A' else A' + 1 := by
    rw [hn₁, rne_eq d₁ A' c₁ hd₁ (by omega)]
    rw [if_neg (by omega), if_neg (by omega)]
  have e2 : rne n₂ d₂ = if A' % 2 = 0 then A' else A' + 1 := by
    rw [hn₂, rne_eq d₂ A' c₂ hd₂ (by omega)]
    rw [if_neg (by omega), if_neg (by omega)]
  by_cases hpar : A' % 2 = 0
  · rw [e1, if_pos hpar] at hA
    omega
  · rw [e2, if_neg hpar] at hB
    omega

theorem qpow_natCast (k : Nat) : (2:ℚ) ^ ((k : ℤ)) = ((2 ^ k : Nat) : ℚ) := by
  rw [zpow_natCast]; push_cast; ring

theorem qpow_neg_le (k : Nat) (x y : ℚ) :
    (2:ℚ) ^ (-(k : ℤ)) * x ≤ y ↔ x ≤ ((2 ^ k : Nat) : ℚ) * y := by
  rw [zpow_neg, qpow_natCast, inv_mul_le_iff₀ (by positivity)]

theorem qpow_neg_lt (k : Nat) (x y : ℚ) :
    x < (2:ℚ) ^ (-(k : ℤ)) * y ↔ ((2 ^ k : Nat) : ℚ) * x < y := by
  rw [zpow_neg, qpow_natCast, lt_inv_mul_iff₀ (by positivity)]

theorem qpow_sub_one_le (c : ℤ) (x y : ℚ) :
    (2:ℚ) ^ (c - 1) * x ≤ y ↔ (2:ℚ) ^ c * x ≤ 2 * y := by
  have h : (2:ℚ) ^ c = 2 ^ (c - 1) * 2 := by
    rw [← zpow_add_one₀ (by norm_num : (2:ℚ) ≠ 0)]
    congr 1
    ring
  rw [h]
  constructor <;> intro hle <;> linarith

theorem ratLog2_spec (a b : Nat) (ha : 0 < a) (hb : 0 < b) :
    (2:ℚ) ^ ratLog2 a b * b ≤ a ∧ (a:ℚ) < 2 ^ (ratLog2 a b + 1) * b := by
  obtain ⟨hLa, hLa'⟩ := natLog2_spec a ha
  obtain ⟨hMb, hMb'⟩ := natLog2_spec b hb
  simp only [ratLog2]
  by_cases hML : natLog2 b ≤ natLog2 a
  · rw [if_pos hML]
    by_cases hcond : b * 2 ^ (natLog2 a - natLog2 b) ≤ a
    · rw [if_pos hcond]
      constructor
      · rw [qpow_natCast]
        exact_mod_cast Nat.mul_comm b _ ▸ hcond
      · have hnat : a < 2 ^ (natLog2 a - natLog2 b + 1) * b := by
          calc a < 2 ^ (natLog2 a + 1) := hLa'
            _ = 2 ^ (natLog2 a - natLog2 b + 1) * 2 ^ natLog2 b := by
                rw [← pow_add]; congr 1; omega
            _ ≤ 2 ^ (natLog2 a - natLog2 b + 1) * b :=
                Nat.mul_le_mul_left _ hMb
        have hc : ((natLog2 a - natLog2 b : Nat) : ℤ) + 1
            = ((natLog2 a - natLog2 b + 1 : Nat) : ℤ) := by push_cast; ring
        rw [hc, qpow_natCast]
        exact_mod_cast hnat
    · rw [if_neg hcond]
      push_neg at hcond
      constructor
      · have hnat : 2 ^ (natLog2 a - natLog2 b) * b ≤ 2 * a := by
          have h1 : 2 ^ (natLog2 a - natLog2 b) * b
              < 2 ^ (natLog2 a - natLog2 b) * 2 ^ (natLog2 b + 1) :=
            mul_lt_mul_of_pos_left hMb' (by positivity)
          have h2 : 2 ^ (natLog2 a - natLog2 b) * 2 ^ (natLog2 b + 1)
              = 2 * 2 ^ natLog2 a := by
            rw [← pow_add]
            have he : natLog2 a - natLog2 b + (natLog2 b + 1)
                = natLog2 a + 1 := by omega
            rw [he, pow_succ]
            ring
          have h3 : 2 * 2 ^ natLog2 a ≤ 2 * a := by omega
          omega
        rw [qpow_sub_one_le, qpow_natCast]
        exact_mod_cast hnat
      · have hc : ((natLog2 a - natLog2 b : Nat) : ℤ) - 1 + 1
            = ((natLog2 a - natLog2 b : Nat) : ℤ) := by ring
        rw [hc, qpow_natCast]
        exact_mod_cast Nat.mul_comm _ b ▸ hcond
  · rw [if_neg hML]
    push_neg at hML
    by_cases hcond : b ≤ a * 2 ^ (natLog2 b - natLog2 a)
    · rw [if_pos hcond]
      constructor
      · rw [qpow_neg_le]
        exact_mod_cast Nat.mul_comm a _ ▸ hcond
      · have ht : natLog2 b - natLog2 a ≥ 1 := by omega
        have hc : -((natLog2 b - natLog2 a : Nat) : ℤ) + 1
            = -((natLog2 b - natLog2 a - 1 : Nat) : ℤ) := by
          push_cast [Nat.cast_sub (by omega : 1 ≤ natLog2 b - natLog2 a)]
          ring
        rw [hc, qpow_neg_lt]
        have hnat : 2 ^ (natLog2 b - natLog2 a - 1) * a < b := by
          have h1 : 2 ^ (natLog2 b - natLog2 a - 1) * a
              < 2 ^ (natLog2 b - natLog2 a - 1) * 2 ^ (natLog2 a + 1) :=
            mul_lt_mul_of_pos_left hLa' (by positivity)
          have h2 : 2 ^ (natLog2 b - natLog2 a - 1) * 2 ^ (natLog2 a + 1)
              = 2 ^ natLog2 b := by
            rw [← pow_add]
            congr 1
            omega
          have h3 : 2 ^ natLog2 b ≤ b := hMb
          omega
        exact_mod_cast hnat
    · rw [if_neg hcond]
      push_neg at hcond
      constructor
      · have hc : -((natLog2 b - natLog2 a : Nat) : ℤ) - 1
            = -((natLog2 b - natLog2 a + 1 : Nat) : ℤ) := by push_cast; ring
        rw [hc, qpow_neg_le]
        have hnat : b ≤ 2 ^ (natLog2 b - natLog2 a + 1) * a := by
          have h1 : b < 2 ^ (natLog2 b + 1) := hMb'
          have h2 : (2:Nat) ^ (natLog2 b + 1)
              = 2 ^ (natLog2 b - natLog2 a + 1) * 2 ^ natLog2 a := by
            rw [← pow_add]
            congr 1
            omega
          have h3 : 2 ^ (natLog2 b - natLog2 a + 1) * 2 ^ natLog2 a
              ≤ 2 ^ (natLog2 b - natLog2 a + 1) * a :=
            Nat.mul_le_mul_left _ hLa
          omega
        exact_mod_cast hnat
      · have hc : -((natLog2 b - natLog2 a : Nat) : ℤ) - 1 + 1
            = -((natLog2 b - natLog2 a : Nat) : ℤ) := by ring
        rw [hc, qpow_neg_lt]
        exact_mod_cast Nat.mul_comm _ a ▸ hcond

theorem le_rne (s d B : Nat) (hd : 0 < d) (h : B * d ≤ s) : B ≤ rne s d := by
  by_contra hm
  push_neg at hm
  obtain ⟨B', rfl⟩ : ∃ B', B = B' + 1 := ⟨B - 1, by omega⟩
  have hc := rne_close₂ s d hd
  have h2 : 2 * rne s d * d ≤ 2 * B' * d :=
    Nat.mul_le_mul_right d (by omega)
  rw [show 2 * B' * d = 2 * (B' * d) from by ring] at h2
  rw [add_mul, one_mul] at h
  generalize hG : 2 * rne s d * d = G at hc h2
  generalize hW : B' * d = W at h h2
  omega

theorem rne_ub (s d B : Nat) (hd : 0 < d) (h : s ≤ B * d) : rne s d ≤ B := by
  by_contra hm
  push_neg at hm
  have hc := rne_close₁ s d hd
  have h2 : 2 * (B + 1) * d ≤ 2 * rne s d * d :=
    Nat.mul_le_mul_right d (by omega)
  rw [show 2 * (B + 1) * d = 2 * (B * d) + 2 * d from by ring] at h2
  generalize hG : 2 * rne s d * d = G at hc h2
  generalize hW : B * d = W at h h2
  omega

theorem flPair_nat_bounds (a b : Nat) (ha : 0 < a) (hb : 0 < b) :
    2 ^ 52 * (b * 2 ^ (ratLog2 a b - 52).toNat)
      ≤ a * 2 ^ (-(ratLog2 a b - 52)).toNat ∧
    a * 2 ^ (-(ratLog2 a b - 52)).toNat
      ≤ 2 ^ 53 * (b * 2 ^ (ratLog2 a b - 52).toNat) := by
  obtain ⟨hlo, hhi⟩ := ratLog2_spec a b ha hb
  have hUV : ((-(ratLog2 a b - 52)).toNat : ℤ) + ratLog2 a b
      = ((ratLog2 a b - 52).toNat : ℤ) + 52 := by omega
  constructor
  · have hpw : (2:ℚ) ^ ((52:ℤ)) * 2 ^ (((ratLog2 a b - 52).toNat : ℤ))
        = 2 ^ ratLog2 a b * 2 ^ (((-(ratLog2 a b - 52)).toNat : ℤ)) := by
      rw [← zpow_add₀ (two_ne_zero), ← zpow_add₀ (two_ne_zero)]
      congr 1
      omega
    have hmul : (2:ℚ) ^ ratLog2 a b * b * 2 ^ (((-(ratLog2 a b - 52)).toNat : ℤ))
        ≤ a * 2 ^ (((-(ratLog2 a b - 52)).toNat : ℤ)) :=
      mul_le_mul_of_nonneg_right hlo (by positivity)
    have key : (2:ℚ) ^ ((52:ℤ)) * (b * 2 ^ (((ratLog2 a b - 52).toNat : ℤ)))
        ≤ a * 2 ^ (((-(ratLog2 a b - 52)).toNat : ℤ)) := by
      calc (2:ℚ) ^ ((52:ℤ)) * (b * 2 ^ (((ratLog2 a b - 52).toNat : ℤ)))
          = (2:ℚ) ^ ratLog2 a b * b * 2 ^ (((-(ratLog2 a b - 52)).toNat : ℤ)) := by
            linear_combination (b : ℚ) * hpw
        _ ≤ _ := hmul
    exact_mod_cast key
  · have hpw : (2:ℚ) ^ (ratLog2 a b + 1) * 2 ^ (((-(ratLog2 a b - 52)).toNat : ℤ))
        = 2 ^ ((53:ℤ)) * 2 ^ (((ratLog2 a b - 52).toNat : ℤ)) := by
      rw [← zpow_add₀ (two_ne_zero), ← zpow_add₀ (two_ne_zero)]
      congr 1
      omega
    have hmul : (a:ℚ) * 2 ^ (((-(ratLog2 a b - 52)).toNat : ℤ))
        ≤ 2 ^ (ratLog2 a b + 1) * b * 2 ^ (((-(ratLog2 a b - 52)).toNat : ℤ)) :=
      mul_le_mul_of_nonneg_right (le_of_lt hhi) (by positivity)
    have key : (a:ℚ) * 2 ^ (((-(ratLog2 a b - 52)).toNat : ℤ))
        ≤ 2 ^ ((53:ℤ)) * (b * 2 ^ (((ratLog2 a b - 52).toNat : ℤ))) := by
      calc (a:ℚ) * 2 ^ (((-(ratLog2 a b - 52)).toNat : ℤ))
          ≤ 2 ^ (ratLog2 a b + 1) * b * 2 ^ (((-(ratLog2 a b - 52)).toNat : ℤ)) := hmul
        _ = 2 ^ ((53:ℤ)) * (b * 2 ^ (((ratLog2 a b - 52).toNat : ℤ))) := by
            linear_combination (b : ℚ) * hpw
    exact_mod_cast key

theorem flPair_fst_lb (a b : Nat) (ha : 0 < a) (hb : 0 < b) :
    2 ^ 52 ≤ (flPair a b).1 :=
  le_rne _ _ _ (by positivity) (flPair_nat_bounds a b ha hb).1

theorem flPair_fst_ub (a b : Nat) (ha : 0 < a) (hb : 0 < b) :
    (flPair a b).1 ≤ 2 ^ 53 :=
  rne_ub _ _ _ (by positivity) (flPair_nat_bounds a b ha hb).2

theorem flPair_fst_pos (a b : Nat) (ha : 0 < a) (hb : 0 < b) :
    0 < (flPair a b).1 :=
  lt_of_lt_of_le (by positivity) (flPair_fst_lb a b ha hb)

theorem dyQ_nonneg (p : Nat × Int) : 0 ≤ dyQ p := by
  unfold dyQ
  positivity

theorem dyQ_flPair_lb (a b : Nat) (ha : 0 < a) (hb : 0 < b) :
    (2:ℚ) ^ ratLog2 a b ≤ dyQ (flPair a b) := by
  have hm := flPair_fst_lb a b ha hb
  show (2:ℚ) ^ ratLog2 a b ≤ ((flPair a b).1 : ℚ) * 2 ^ (flPair a b).2
  have hsnd : (flPair a b).2 = ratLog2 a b - 52 := rfl
  rw [hsnd]
  calc (2:ℚ) ^ ratLog2 a b = 2 ^ ((52:ℤ)) * 2 ^ (ratLog2 a b - 52) := by
        rw [← zpow_add₀ (two_ne_zero)]
        congr 1
        ring
    _ ≤ ((flPair a b).1 : ℚ) * 2 ^ (ratLog2 a b - 52) := by
        apply mul_le_mul_of_nonneg_right _ (by positivity)
        rw [show ((52:ℤ)) = ((52:Nat):ℤ) from rfl, qpow_natCast]
        exact_mod_cast hm

theorem dyQ_flPair_ub (a b : Nat) (ha : 0 < a) (hb : 0 < b) :
    dyQ (flPair a b) ≤ (2:ℚ) ^ (ratLog2 a b + 1) := by
  have hm := flPair_fst_ub a b ha hb
  show ((flPair a b).1 : ℚ) * 2 ^ (flPair a b).2 ≤ (2:ℚ) ^ (ratLog2 a b + 1)
  have hsnd : (flPair a b).2 = ratLog2 a b - 52 := rfl
  rw [hsnd]
  calc ((flPair a b).1 : ℚ) * 2 ^ (ratLog2 a b - 52)
      ≤ 2 ^ ((53:ℤ)) * 2 ^ (ratLog2 a b - 52) := by
        apply mul_le_mul_of_nonneg_right _ (by positivity)
        rw [show ((53:ℤ)) = ((53:Nat):ℤ) from rfl, qpow_natCast]
        exact_mod_cast hm
    _ = (2:ℚ) ^ (ratLog2 a b + 1) := by
        rw [← zpow_add₀ (two_ne_zero)]
        congr 1
        ring

theorem ratLog2_mono (a₁ b₁ a₂ b₂ : Nat) (ha₁ : 0 < a₁) (hb₁ : 0 < b₁)
    (ha₂ : 0 < a₂) (hb₂ : 0 < b₂) (h : a₁ * b₂ ≤ a₂ * b₁) :
    ratLog2 a₁ b₁ ≤ ratLog2 a₂ b₂ := by
  obtain ⟨h1lo, _⟩ := ratLog2_spec a₁ b₁ ha₁ hb₁
  obtain ⟨_, h2hi⟩ := ratLog2_spec a₂ b₂ ha₂ hb₂
  have hq : (a₁:ℚ) * b₂ ≤ (a₂:ℚ) * b₁ := by exact_mod_cast h
  have k1 : (2:ℚ) ^ ratLog2 a₁ b₁ * ((b₁:ℚ) * b₂) ≤ (a₁:ℚ) * b₂ := by
    calc (2:ℚ) ^ ratLog2 a₁ b₁ * ((b₁:ℚ) * b₂)
        = ((2:ℚ) ^ ratLog2 a₁ b₁ * b₁) * b₂ := by ring
      _ ≤ (a₁:ℚ) * b₂ := mul_le_mul_of_nonneg_right h1lo (by positivity)
  have k2 : (a₂:ℚ) * b₁ < (2:ℚ) ^ (ratLog2 a₂ b₂ + 1) * ((b₁:ℚ) * b₂) := by
    calc (a₂:ℚ) * b₁
        < ((2:ℚ) ^ (ratLog2 a₂ b₂ + 1) * b₂) * b₁ :=
          mul_lt_mul_of_pos_right h2hi (by positivity)
      _ = (2:ℚ) ^ (ratLog2 a₂ b₂ + 1) * ((b₁:ℚ) * b₂) := by ring
  have hlt : (2:ℚ) ^ ratLog2 a₁ b₁ * ((b₁:ℚ) * b₂)
      < (2:ℚ) ^ (ratLog2 a₂ b₂ + 1) * ((b₁:ℚ) * b₂) :=
    lt_of_le_of_lt (le_trans k1 hq) k2
  have hzp := lt_of_mul_lt_mul_right hlt (by positivity : (0:ℚ) ≤ (b₁:ℚ) * b₂)
  have := (zpow_lt_zpow_iff_right₀ (by norm_num : (1:ℚ) < 2)).mp hzp
  omega

theorem dyQ_flPair_mono (a₁ b₁ a₂ b₂ : Nat) (ha₁ : 0 < a₁) (hb₁ : 0 < b₁)
    (ha₂ : 0 < a₂) (hb₂ : 0 < b₂) (h : a₁ * b₂ ≤ a₂ * b₁) :
    dyQ (flPair a₁ b₁) ≤ dyQ (flPair a₂ b₂) := by
  have hR := ratLog2_mono a₁ b₁ a₂ b₂ ha₁ hb₁ ha₂ hb₂ h
  rcases eq_or_lt_of_le hR with hEq | hLt
  · simp only [dyQ, flPair, ← hEq]
    apply mul_le_mul_of_nonneg_right _ (by positivity)
    have hmono : rne (a₁ * 2 ^ (-(ratLog2 a₁ b₁ - 52)).toNat)
          (b₁ * 2 ^ (ratLog2 a₁ b₁ - 52).toNat)
        ≤ rne (a₂ * 2 ^ (-(ratLog2 a₁ b₁ - 52)).toNat)
          (b₂ * 2 ^ (ratLog2 a₁ b₁ - 52).toNat) := by
      apply rne_mono _ _ _ _ (by positivity) (by positivity)
      have e1 : a₁ * 2 ^ (-(ratLog2 a₁ b₁ - 52)).toNat
            * (b₂ * 2 ^ (ratLog2 a₁ b₁ - 52).toNat)
          = (a₁ * b₂) * (2 ^ (-(ratLog2 a₁ b₁ - 52)).toNat
            * 2 ^ (ratLog2 a₁ b₁ - 52).toNat) := by ring
      have e2 : a₂ * 2 ^ (-(ratLog2 a₁ b₁ - 52)).toNat
            * (b₁ * 2 ^ (ratLog2 a₁ b₁ - 52).toNat)
          = (a₂ * b₁) * (2 ^ (-(ratLog2 a₁ b₁ - 52)).toNat
            * 2 ^ (ratLog2 a₁ b₁ - 52).toNat) := by ring
      rw [e1, e2]
      exact Nat.mul_le_mul_right _ h
    exact_mod_cast hmono
  · calc dyQ (flPair a₁ b₁)
        ≤ (2:ℚ) ^ (ratLog2 a₁ b₁ + 1) := dyQ_flPair_ub a₁ b₁ ha₁ hb₁
      _ ≤ (2:ℚ) ^ ratLog2 a₂ b₂ := zpow_le_zpow_right₀ one_le_two (by omega)
      _ ≤ dyQ (flPair a₂ b₂) := dyQ_flPair_lb a₂ b₂ ha₂ hb₂

theorem mul100Pair_snd_pos (p : Nat × Int) : 0 < (mul100Pair p).2 := by
  unfold mul100Pair
  split_ifs with h
  · norm_num
  · show 0 < 2 ^ (-p.2).toNat
    positivity

theorem mul100Pair_fst_pos (p : Nat × Int) (hp : 0 < p.1) :
    0 < (mul100Pair p).1 := by
  unfold mul100Pair
  split_ifs with h
  · show 0 < p.1 * 100 * 2 ^ p.2.toNat
    exact Nat.mul_pos (Nat.mul_pos hp (by norm_num)) (by positivity)
  · show 0 < p.1 * 100
    exact Nat.mul_pos hp (by norm_num)

theorem mul100Pair_val (p : Nat × Int) :
    ((mul100Pair p).1 : ℚ) = dyQ p * 100 * ((mul100Pair p).2 : ℚ) := by
  unfold mul100Pair dyQ
  split_ifs with h
  · push_cast
    rw [← zpow_natCast (2:ℚ) p.2.toNat, Int.toNat_of_nonneg h]
    ring
  · push_neg at h
    push_cast
    rw [← zpow_natCast (2:ℚ) (-p.2).toNat]
    have hpow : (2:ℚ) ^ p.2 * 2 ^ (((-p.2).toNat : ℤ)) = 1 := by
      rw [← zpow_add₀ (two_ne_zero)]
      have he : p.2 + ((-p.2).toNat : ℤ) = 0 := by omega
      rw [he, zpow_zero]
    linear_combination (-((p.1 : ℚ) * 100)) * hpow

theorem floorDy_eq (p : Nat × Int) : floorDy p = ⌊dyQ p⌋₊ := by
  unfold floorDy dyQ
  split_ifs with h
  · have hc : (p.1 : ℚ) * 2 ^ p.2 = ((p.1 * 2 ^ p.2.toNat : Nat) : ℚ) := by
      push_cast
      rw [← zpow_natCast (2:ℚ) p.2.toNat, Int.toNat_of_nonneg h]
    rw [hc, Nat.floor_natCast]
  · push_neg at h
    have hc : (p.1 : ℚ) * 2 ^ p.2 = (p.1 : ℚ) / ((2 ^ (-p.2).toNat : Nat) : ℚ) := by
      push_cast
      rw [← zpow_natCast (2:ℚ) (-p.2).toNat, div_eq_mul_inv, ← zpow_neg,
          show -(((-p.2).toNat : ℤ)) = p.2 from by omega]
    rw [hc, Nat.floor_div_nat, Nat.floor_natCast]

theorem pyPercent_eq (i n : Nat) :
    pyPercent i n = ⌊dyQ (flPair (mul100Pair (flPair (i + 1) n)).1
      (mul100Pair (flPair (i + 1) n)).2)⌋₊ := by
  show floorDy (flPair (mul100Pair (flPair (i + 1) n)).1
      (mul100Pair (flPair (i + 1) n)).2) = _
  rw [floorDy_eq]

theorem flStep2_mono (p q : Nat × Int) (hp : 0 < p.1) (hq : 0 < q.1)
    (h : dyQ p ≤ dyQ q) :
    dyQ (flPair (mul100Pair p).1 (mul100Pair p).2)
      ≤ dyQ (flPair (mul100Pair q).1 (mul100Pair q).2) := by
  apply dyQ_flPair_mono _ _ _ _ (mul100Pair_fst_pos p hp) (mul100Pair_snd_pos p)
    (mul100Pair_fst_pos q hq) (mul100Pair_snd_pos q)
  have hcast : ((mul100Pair p).1 : ℚ) * ((mul100Pair q).2 : ℚ)
      ≤ ((mul100Pair q).1 : ℚ) * ((mul100Pair p).2 : ℚ) := by
    rw [mul100Pair_val p, mul100Pair_val q]
    have h2 := mul_le_mul_of_nonneg_right h
      (show (0:ℚ) ≤ 100 * ((mul100Pair p).2 : ℚ) * ((mul100Pair q).2 : ℚ) by positivity)
    linarith [h2]
  exact_mod_cast hcast

theorem pyPercent_mono (n i j : Nat) (hn : 0 < n) (hij : i ≤ j) :
    pyPercent i n ≤ pyPercent j n := by
  rw [pyPercent_eq, pyPercent_eq]
  apply Nat.floor_mono
  apply flStep2_mono _ _ (flPair_fst_pos _ _ (by omega) hn)
    (flPair_fst_pos _ _ (by omega) hn)
  exact dyQ_flPair_mono _ _ _ _ (by omega) hn (by omega) hn
    (Nat.mul_le_mul_right n (by omega))

theorem flPair_self (n : Nat) (hn : 0 < n) : flPair n n = (2 ^ 52, -52) := by
  have hR : ratLog2 n n = 0 := by
    simp only [ratLog2]
    rw [if_pos (le_refl (natLog2 n)), Nat.sub_self, pow_zero, Nat.mul_one,
        if_pos (le_refl n)]
    rfl
  simp only [flPair, hR]
  have e1 : (-((0:ℤ) - 52)).toNat = 52 := by decide
  have e2 : ((0:ℤ) - 52).toNat = 0 := by decide
  rw [e1, e2, pow_zero, Nat.mul_one]
  have e3 := rne_eq n (2 ^ 52) 0 hn hn
  rw [Nat.add_zero] at e3
  rw [e3, if_pos (show 2 * 0 < n by omega)]
  rw [Prod.mk.injEq]
  exact ⟨rfl, by decide⟩

theorem pyPercent_last (n : Nat) (hn : 0 < n) : pyPercent (n - 1) n = 100 := by
  show floorDy (flPair (mul100Pair (flPair (n - 1 + 1) n)).1
      (mul100Pair (flPair (n - 1 + 1) n)).2) = 100
  rw [Nat.sub_add_cancel hn, flPair_self n hn]
  decide

theorem pyPercent_lt_100 (i n : Nat) (hi : i + 1 < n) (hn : n ≤ 2 ^ 53) :
    pyPercent i n < 100 := by
  have hn0 : 0 < n := by omega
  rw [pyPercent_eq]
  have h1 : dyQ (flPair (i + 1) n)
      ≤ dyQ (flPair 9007199254740991 9007199254740992) := by
    apply dyQ_flPair_mono _ _ _ _ (by omega) hn0 (by norm_num) (by norm_num)
    have h53 : (2:Nat) ^ 53 = 9007199254740992 := by norm_num
    rw [h53] at hn
    omega
  have h2 := flStep2_mono _ _ (flPair_fst_pos _ _ (by omega) hn0)
    (flPair_fst_pos 9007199254740991 9007199254740992 (by norm_num) (by norm_num)) h1
  have hY : flPair (mul100Pair (flPair 9007199254740991 9007199254740992)).1
      (mul100Pair (flPair 9007199254740991 9007199254740992)).2
      = (7036874417766399, -46) := by decide
  rw [hY] at h2
  have hconc : dyQ ((7036874417766399, -46) : Nat × Int) < 100 := by
    show ((7036874417766399 : Nat) : ℚ) * 2 ^ ((-46 : ℤ)) < 100
    rw [show ((-46:ℤ)) = -((46:Nat):ℤ) from rfl, zpow_neg, qpow_natCast,
        mul_inv_lt_iff₀ (by positivity)]
    norm_num
  exact (Nat.floor_lt (dyQ_nonneg _)).mpr (by exact_mod_cast lt_of_le_of_lt h2 hconc)

theorem trace_filterMap_progress (l : List (Nat × XElem)) (n : Nat) :
    ((l.map (fun p => [PEvent.progress (pyPercent p.1 n),
        PEvent.unitParsed (parseSingleUnit p.2)])).flatten).filterMap
      (fun e => match e with
        | PEvent.progress m => some m
        | PEvent.unitParsed _ => none)
    = l.map (fun p => pyPercent p.1 n) := by
  induction l with
  | nil => rfl
  | cons x t ih => simp [ih]

theorem flatten_pairs_getElem {α β : Type} (F G : α → β) (l : List α) :
    ∀ i : Nat,
      ((l.map (fun x => [F x, G x])).flatten)[2 * i]? = (l[i]?).map F ∧
      ((l.map (fun x => [F x, G x])).flatten)[2 * i + 1]? = (l[i]?).map G := by
  induction l with
  | nil => intro i; simp
  | cons x t ih =>
      intro i
      cases i with
      | zero => simp
      | succ j =>
          have h1 : 2 * (j + 1) = 2 * j + 1 + 1 := by ring
          have h2 : 2 * (j + 1) + 1 = 2 * j + 1 + 1 + 1 := by ring
          constructor
          · rw [h1]
            simp only [List.map_cons, List.flatten_cons, List.cons_append,
              List.nil_append, List.getElem?_cons_succ]
            exact (ih j).1
          · rw [h2]
            simp only [List.map_cons, List.flatten_cons, List.cons_append,
              List.nil_append, List.getElem?_cons_succ]
            exact (ih j).2

theorem progressPercents_eq (root : XElem) :
    progressPercents root
      = (List.range (tuElems root).length).map
          (fun i => pyPercent i (tuElems root).length) := by
  simp only [progressPercents, parseUnitsTrace]
  rw [trace_filterMap_progress]
  rw [show (fun p : Nat × XElem => pyPercent p.1 (tuElems root).length)
        = (fun i : Nat => pyPercent i (tuElems root).length) ∘ Prod.fst from rfl]
  rw [← List.map_map, List.enum_map_fst]

/-- C2 (amended): the parsing loop emits exactly one Progress per `<tu>`,
each emitted immediately BEFORE that unit is parsed (trace position `2i`
holds the Progress, `2i+1` the unit), with percent exactly the binary64
value `int((i+1)/N*100)` the source computes — the float quotient rounded
to 53 bits, times 100 in float arithmetic, truncated by `int()`, not
`round` and not the exact integer `floor(100(i+1)/N)`; the sequence is
non-decreasing and reaches 100 exactly at the last unit (the values
before the last stay below 100 for any N a real document can have,
`N ≤ 2^53`); with zero units no event is emitted. -/
theorem progress_trace_spec (root : XElem) :
    progressPercents root
      = (List.range (tuElems root).length).map
          (fun i => pyPercent i (tuElems root).length) ∧
    List.Chain' (fun a b => a ≤ b) (progressPercents root) ∧
    ((tuElems root).length ≠ 0 → (progressPercents root).getLast? = some 100) ∧
    ((tuElems root).length ≤ 2 ^ 53 →
      ∀ i, i + 1 < (tuElems root).length →
        pyPercent i (tuElems root).length < 100) ∧
    ((tuElems root).length = 0 → parseUnitsTrace root = []) ∧
    (∀ i, i < (tuElems root).length →
      (parseUnitsTrace root)[2 * i]?
        = some (PEvent.progress (pyPercent i (tuElems root).length)) ∧
      (parseUnitsTrace root)[2 * i + 1]?
        = ((tuElems root)[i]?).map
            (fun e => PEvent.unitParsed (parseSingleUnit e))) := by
  refine ⟨progressPercents_eq root, ?_, ?_, ?_, ?_, ?_⟩
  · rw [progressPercents_eq]
    apply List.Pairwise.chain'
    rw [List.pairwise_map, List.pairwise_iff_getElem]
    intro i j hi hj hij
    rw [List.length_range] at hi hj
    simp only [List.getElem_range]
    exact pyPercent_mono (tuElems root).length i j (by omega) (by omega)
  · intro hn
    have hpos : 0 < (tuElems root).length := Nat.pos_of_ne_zero hn
    rw [progressPercents_eq, List.getLast?_map]
    have hr : (List.range (tuElems root).length).getLast?
        = some ((tuElems root).length - 1) := by
      rw [List.getLast?_eq_getElem?, List.length_range]
      exact List.getElem?_range (by omega)
    rw [hr]
    have h100 := pyPercent_last (tuElems root).length hpos
    simp [h100]
  · intro hle i hi
    exact pyPercent_lt_100 i (tuElems root).length hi hle
  · intro hn
    rw [List.length_eq_zero] at hn
    unfold parseUnitsTrace
    rw [hn]
    rfl
  · intro i hi
    have h := flatten_pairs_getElem
      (fun p : Nat × XElem => PEvent.progress (pyPercent p.1 (tuElems root).length))
      (fun p : Nat × XElem => PEvent.unitParsed (parseSingleUnit p.2))
      (tuElems root).enum i
    simp only [parseUnitsTrace]
    constructor
    · rw [h.1, List.getElem?_enum]
      have : (tuElems root)[i]? = some ((tuElems root).get ⟨i, hi⟩) := by
        rw [List.getElem?_eq_getElem hi]
        rfl
      rw [this]
      rfl
    · rw [h.2, List.getElem?_enum]
      cases hq : (tuElems root)[i]? with
      | none => rfl
      | some e => rfl

/-- C2 counterexample: on a three-unit document the second Progress value
is 66, while the claimed `round(100 * 2 / 3)` is 67; and the first trace
event is already a Progress, before any unit has been parsed, refuting
"emitted after that unit is fully parsed". -/
theorem progress_round_cex :
    (progressPercents c2Root)[1]? = some 66 ∧ specRound (100 * 2) 3 = 67 ∧
    (parseUnitsTrace c2Root)[0]? = some (PEvent.progress 33) := by decide

/-- C2 witness: the amended statement's terminal-percent clause on the
three-unit document. -/
theorem progress_trace_spec_witness :
    (progressPercents c2Root).getLast? = some 100 :=
  (progress_trace_spec c2Root).2.2.1 (by decide)


theorem filter_tag_map_const {γ : Type} (f : γ → XElem) (tg : String)
    (hf : ∀ x, (f x).tag = tg) (l : List γ) (t : String) :
    (l.map f).filter (fun c => c.tag = t)
      = if tg = t then l.map f else [] := by
  induction l with
  | nil => simp
  | cons x xs ih =>
      simp only [List.map_cons, List.filter_cons, hf x, ih]
      by_cases h : tg = t
      · simp [h]
      · simp [h]

theorem filterMap_some_of_ne (ns : List String) (h : ∀ x ∈ ns, x ≠ "") :
    ns.filterMap (fun x => if x = "" then none else some x) = ns := by
  induction ns with
  | nil => rfl
  | cons x t ih =>
      simp only [List.filterMap_cons, if_neg (h x (by simp))]
      rw [ih (fun y hy => h y (by simp [hy]))]

theorem noteTexts_concat (e : XElem) (pre post : List XElem) (ns : List String)
    (he : e.children = pre ++ ns.map mkNoteElem ++ post)
    (hpre : ∀ c ∈ pre, c.tag ≠ "note") (hpost : ∀ c ∈ post, c.tag ≠ "note")
    (hns : ∀ x ∈ ns, x ≠ "") :
    noteTexts e = ns := by
  unfold noteTexts XElem.findAll
  have h1 : pre.filter (fun c => c.tag = "note") = [] :=
    List.filter_eq_nil_iff.mpr (fun c hc => by simp [hpre c hc])
  have h2 : post.filter (fun c => c.tag = "note") = [] :=
    List.filter_eq_nil_iff.mpr (fun c hc => by simp [hpost c hc])
  rw [he, List.filter_append, List.filter_append, h1, h2,
      filter_tag_map_const mkNoteElem "note" (fun x => rfl) ns "note",
      if_pos rfl]
  simp only [List.nil_append, List.append_nil, List.filterMap_map]
  exact filterMap_some_of_ne ns hns

theorem propsFold (ps : List (String × String)) :
    ∀ acc, (∀ kv ∈ ps, kv.2 ≠ "") → (ps.map Prod.fst).Nodup →
      (∀ kv ∈ ps, ∀ kv' ∈ acc, kv'.1 ≠ kv.1) →
      (ps.map mkPropElem).foldl
        (fun acc p =>
          if p.text = "" then acc
          else dinsert acc ((dget p.attrs "type").getD "unknown") p.text) acc
      = acc ++ ps := by
  induction ps with
  | nil => intro acc _ _ _; simp
  | cons kv t ih =>
      intro acc hv hnd hfresh
      simp only [List.map_cons, List.foldl_cons]
      have htext : (mkPropElem kv).text = kv.2 := rfl
      have htype : (dget (mkPropElem kv).attrs "type").getD "unknown" = kv.1 := by
        rw [show (mkPropElem kv).attrs = [("type", kv.1)] from rfl,
            dget_cons_self]
        rfl
      rw [htext, if_neg (hv kv (by simp)), htype,
          dinsert_eq_append acc kv.1 kv.2
            (fun kv' h' => hfresh kv (by simp) kv' h')]
      simp only [List.map_cons, List.nodup_cons] at hnd
      rw [ih (acc ++ [kv]) (fun y hy => hv y (by simp [hy])) hnd.2 ?_]
      · rw [List.append_assoc, List.singleton_append]
      · intro kv2 h2 kv' h'
        rcases List.mem_append.mp h' with h' | h'
        · exact hfresh kv2 (by simp [h2]) kv' h'
        · rw [List.mem_singleton.mp h']
          intro heq
          exact hnd.1 (heq ▸ List.mem_map_of_mem Prod.fst h2)

theorem propsDict_concat (e : XElem) (pre post : List XElem)
    (ps : List (String × String))
    (he : e.children = pre ++ ps.map mkPropElem ++ post)
    (hpre : ∀ c ∈ pre, c.tag ≠ "prop") (hpost : ∀ c ∈ post, c.tag ≠ "prop")
    (hps : ∀ kv ∈ ps, kv.2 ≠ "") (hnd : (ps.map Prod.fst).Nodup) :
    propsDict e = ps := by
  unfold propsDict XElem.findAll
  have h1 : pre.filter (fun c => c.tag = "prop") = [] :=
    List.filter_eq_nil_iff.mpr (fun c hc => by simp [hpre c hc])
  have h2 : post.filter (fun c => c.tag = "prop") = [] :=
    List.filter_eq_nil_iff.mpr (fun c hc => by simp [hpost c hc])
  rw [he, List.filter_append, List.filter_append, h1, h2,
      filter_tag_map_const mkPropElem "prop" (fun x => rfl) ps "prop",
      if_pos rfl]
  simp only [List.nil_append, List.append_nil]
  exact propsFold ps [] hps hnd (by simp)

theorem braceFold (l : List (String × String)) :
    ∀ acc, (∀ kv ∈ l, startsWithBrace kv.1 = false) → (l.map Prod.fst).Nodup →
      (∀ kv ∈ l, ∀ kv' ∈ acc, kv'.1 ≠ kv.1) →
      l.foldl
        (fun a kv => if startsWithBrace kv.1 then a else dinsert a kv.1 kv.2)
        acc
      = acc ++ l := by
  induction l with
  | nil => intro acc _ _ _; simp
  | cons kv t ih =>
      intro acc hb hnd hfresh
      simp only [List.foldl_cons, hb kv (by simp), Bool.false_eq_true, if_false]
      rw [dinsert_eq_append acc kv.1 kv.2
            (fun kv' h' => hfresh kv (by simp) kv' h')]
      simp only [List.map_cons, List.nodup_cons] at hnd
      rw [ih (acc ++ [kv]) (fun y hy => hb y (by simp [hy])) hnd.2 ?_]
      · rw [List.append_assoc, List.singleton_append]
      · intro kv2 h2 kv' h'
        rcases List.mem_append.mp h' with h' | h'
        · exact hfresh kv2 (by simp [h2]) kv' h'
        · rw [List.mem_singleton.mp h']
          intro heq
          exact hnd.1 (heq ▸ List.mem_map_of_mem Prod.fst h2)

theorem tuidFold (l : List (String × String)) :
    ∀ acc, (∀ kv ∈ l, kv.1 ≠ "tuid") → (l.map Prod.fst).Nodup →
      (∀ kv ∈ l, ∀ kv' ∈ acc, kv'.1 ≠ kv.1) →
      l.foldl (fun a kv => if kv.1 = "tuid" then a else dinsert a kv.1 kv.2) acc
      = acc ++ l := by
  induction l with
  | nil => intro acc _ _ _; simp
  | cons kv t ih =>
      intro acc ht hnd hfresh
      simp only [List.foldl_cons]
      rw [if_neg (ht kv (by simp)),
          dinsert_eq_append acc kv.1 kv.2
            (fun kv' h' => hfresh kv (by simp) kv' h')]
      simp only [List.map_cons, List.nodup_cons] at hnd
      rw [ih (acc ++ [kv]) (fun y hy => ht y (by simp [hy])) hnd.2 ?_]
      · rw [List.append_assoc, List.singleton_append]
      · intro kv2 h2 kv' h'
        rcases List.mem_append.mp h' with h' | h'
        · exact hfresh kv2 (by simp [h2]) kv' h'
        · rw [List.mem_singleton.mp h']
          intro heq
          exact hnd.1 (heq ▸ List.mem_map_of_mem Prod.fst h2)

theorem npFold (strs : List (String × String)) :
    ∀ acc, (∀ kv ∈ strs, kv.1 ≠ "notes" ∧ kv.1 ≠ "properties") →
      (strs.map Prod.fst).Nodup →
      (∀ kv ∈ strs, ∀ kv' ∈ acc, kv'.1 ≠ kv.1) →
      (strs.map (fun kv => (kv.1, HVal.str kv.2))).foldl
        (fun a kv =>
          if kv.1 = "notes" ∨ kv.1 = "properties" then a
          else dinsert a kv.1 (hvalToStr kv.2))
        acc
      = acc ++ strs := by
  induction strs with
  | nil => intro acc _ _ _; simp
  | cons kv t ih =>
      intro acc hk hnd hfresh
      simp only [List.map_cons, List.foldl_cons]
      rw [if_neg (by
            simp only [not_or]
            exact hk kv (by simp))]
      rw [show hvalToStr (HVal.str kv.2) = kv.2 from rfl]
      rw [dinsert_eq_append acc kv.1 kv.2
            (fun kv' h' => hfresh kv (by simp) kv' h')]
      simp only [List.map_cons, List.nodup_cons] at hnd
      rw [ih (acc ++ [kv]) (fun y hy => hk y (by simp [hy])) hnd.2 ?_]
      · rw [List.append_assoc, List.singleton_append]
      · intro kv2 h2 kv' h'
        rcases List.mem_append.mp h' with h' | h'
        · exact hfresh kv2 (by simp [h2]) kv' h'
        · rw [List.mem_singleton.mp h']
          intro heq
          exact hnd.1 (heq ▸ List.mem_map_of_mem Prod.fst h2)

theorem extractTextFromSeg_plain (txt : String) :
    extractTextFromSeg (XElem.mk "seg" [] txt [] "") = pyStrip txt := by
  unfold extractTextFromSeg
  simp only [XElem.children, XElem.text, List.foldl_nil]

theorem parseVariant_createVariant (lang : String) (v : Variant)
    (h : CanonVariant lang v) : parseVariant (createVariant lang v) = some v := by
  obtain ⟨h1, h2, h3, h4, h5, h6, h7, h8, h9⟩ := h
  cases hattr : v.attributes with
  | nil => rw [hattr] at h4; simp at h4
  | cons kv rest =>
      rw [hattr] at h4 h5 h6
      simp only [List.head?_cons, Option.some.injEq] at h4
      simp only [List.tail_cons] at h5 h6
      rw [h4] at hattr
      have hA : (createVariant lang v).attrs = (xmlLangKey, v.lang) :: rest := by
        simp only [createVariant, XElem.attrs, hattr, h4, List.foldl_cons]
        have hxb : startsWithBrace (xmlLangKey, v.lang).1 = true := by
          show startsWithBrace xmlLangKey = true
          decide
        rw [if_pos hxb]
        rw [braceFold rest [(xmlLangKey, lang)] h5 h6 ?_]
        · rw [h1, List.singleton_append]
        · intro kv2 h2' kv' h'
          rw [List.mem_singleton.mp h']
          intro heq
          have hb : startsWithBrace kv2.1 = true := by
            rw [← heq]
            show startsWithBrace xmlLangKey = true
            decide
          rw [h5 kv2 h2'] at hb
          exact Bool.false_ne_true hb
      have hseg : (createVariant lang v).findTag "seg"
          = some (XElem.mk "seg" [] v.text [] "") := by
        rfl
      have hN : noteTexts (createVariant lang v) = v.notes := by
        refine noteTexts_concat _ [XElem.mk "seg" [] v.text [] ""]
          (v.properties.map mkPropElem) v.notes rfl ?_ ?_ h7
        · intro c hc
          rw [List.mem_singleton.mp hc]
          show ("seg" : String) ≠ "note"
          decide
        · intro c hc
          obtain ⟨p, hp, rfl⟩ := List.mem_map.mp hc
          show (mkPropElem p).tag ≠ "note"
          rw [show (mkPropElem p).tag = "prop" from rfl]
          decide
      have hP : propsDict (createVariant lang v) = v.properties := by
        refine propsDict_concat _
          (XElem.mk "seg" [] v.text [] "" :: v.notes.map mkNoteElem) []
          v.properties ?_ ?_ ?_ h9 h8
        · show (createVariant lang v).children = _
          simp [createVariant, XElem.children]
        · intro c hc
          rcases List.mem_cons.mp hc with hc | hc
          · rw [hc]
            show ("seg" : String) ≠ "prop"
            decide
          · obtain ⟨x, hx, rfl⟩ := List.mem_map.mp hc
            show (mkNoteElem x).tag ≠ "prop"
            rw [show (mkNoteElem x).tag = "note" from rfl]
            decide
        · intro c hc
          simp at hc
      unfold parseVariant
      simp only [hA, hseg, dget_cons_self]
      rw [if_neg h2, extractTextFromSeg_plain, h3, hN, hP, ← hattr]

theorem variantsFold (vs : List (String × Variant)) :
    ∀ acc, (∀ kv ∈ vs, CanonVariant kv.1 kv.2) → (vs.map Prod.fst).Nodup →
      (∀ kv ∈ vs, ∀ kv' ∈ acc, kv'.1 ≠ kv.1) →
      (vs.map (fun kv => createVariant kv.1 kv.2)).foldl
        (fun acc tuv =>
          match parseVariant tuv with
          | some v => dinsert acc v.lang v
          | none => acc) acc
      = acc ++ vs := by
  induction vs with
  | nil => intro acc _ _ _; simp
  | cons kv t ih =>
      intro acc hc hnd hfresh
      simp only [List.map_cons, List.foldl_cons]
      have hpv := parseVariant_createVariant kv.1 kv.2 (hc kv (by simp))
      simp only [hpv]
      have hl : kv.2.lang = kv.1 := (hc kv (by simp)).1
      rw [hl]
      rw [show dinsert acc kv.1 kv.2 = dinsert acc (kv.1, kv.2).1 (kv.1, kv.2).2
            from rfl]
      rw [show ((kv.1, kv.2) : String × Variant) = kv from rfl]
      rw [dinsert_eq_append acc kv.1 kv.2
            (fun kv' h' => hfresh kv (by simp) kv' h')]
      simp only [List.map_cons, List.nodup_cons] at hnd
      rw [ih (acc ++ [kv]) (fun y hy => hc y (by simp [hy])) hnd.2 ?_]
      · rw [List.append_assoc, List.singleton_append]
      · intro kv2 h2 kv' h'
        rcases List.mem_append.mp h' with h' | h'
        · exact hfresh kv2 (by simp [h2]) kv' h'
        · rw [List.mem_singleton.mp h']
          intro heq
          exact hnd.1 (heq ▸ List.mem_map_of_mem Prod.fst h2)

theorem parseSingleUnit_createTU (u : TU) (h : CanonTU u) :
    parseSingleUnit (createTU u) = u := by
  obtain ⟨hm, hnd, htuid, hnotes, hpnd, hpv, hvnd, hvc⟩ := h
  have hattrs : (createTU u).attrs = u.attributes := by
    by_cases ht : u.tuid = ""
    · rw [if_pos ht] at htuid
      simp only [createTU, XElem.attrs, if_pos ht]
      rw [tuidFold u.attributes [] htuid hnd (by simp)]
      simp
    · rw [if_neg ht] at htuid
      cases hattr : u.attributes with
      | nil => rw [hattr] at htuid; simp at htuid
      | cons kv rest =>
          rw [hattr] at htuid hnd
          simp only [List.head?_cons, Option.some.injEq] at htuid
          rw [htuid] at hattr
          simp only [List.map_cons, List.nodup_cons] at hnd
          have hrk : ∀ kv2 ∈ rest, kv2.1 ≠ "tuid" := by
            intro kv2 h2 heq
            rw [htuid] at hnd
            apply hnd.1
            show "tuid" ∈ rest.map (fun kv => kv.1)
            rw [← heq]
            exact List.mem_map_of_mem _ h2
          simp only [createTU, XElem.attrs, if_neg ht, hattr, List.foldl_cons]
          simp only [if_true]
          rw [tuidFold rest [("tuid", u.tuid)] hrk ?_ ?_]
          · rw [List.singleton_append, htuid]
          · rw [htuid] at hnd
            exact hnd.2
          · intro kv2 h2 kv' h'
            rw [List.mem_singleton.mp h']
            intro heq
            exact hrk kv2 h2 heq.symm
  have htv : (dget u.attributes "tuid").getD "" = u.tuid := by
    by_cases ht : u.tuid = ""
    · rw [if_pos ht] at htuid
      rw [dget_eq_none u.attributes "tuid" htuid, ht]
      rfl
    · rw [if_neg ht] at htuid
      cases hattr : u.attributes with
      | nil => rw [hattr] at htuid; simp at htuid
      | cons kv rest =>
          rw [hattr] at htuid
          simp only [List.head?_cons, Option.some.injEq] at htuid
          rw [htuid, dget_cons_self]
          rfl
  have hN : noteTexts (createTU u) = u.notes := by
    refine noteTexts_concat _ []
      (u.properties.map mkPropElem
        ++ u.variants.map (fun kv => createVariant kv.1 kv.2)) u.notes
      ?_ (by simp) ?_ hnotes
    · show (createTU u).children = _
      simp [createTU, XElem.children]
    · intro c hc
      rcases List.mem_append.mp hc with hc | hc
      · obtain ⟨p, hp, rfl⟩ := List.mem_map.mp hc
        show (mkPropElem p).tag ≠ "note"
        rw [show (mkPropElem p).tag = "prop" from rfl]
        decide
      · obtain ⟨p, hp, rfl⟩ := List.mem_map.mp hc
        show (createVariant p.1 p.2).tag ≠ "note"
        rw [show (createVariant p.1 p.2).tag = "tuv" from rfl]
        decide
  have hP : propsDict (createTU u) = u.properties := by
    refine propsDict_concat _ (u.notes.map mkNoteElem)
      (u.variants.map (fun kv => createVariant kv.1 kv.2)) u.properties
      ?_ ?_ ?_ hpv hpnd
    · show (createTU u).children = _
      simp [createTU, XElem.children]
    · intro c hc
      obtain ⟨p, hp, rfl⟩ := List.mem_map.mp hc
      show (mkNoteElem p).tag ≠ "prop"
      rw [show (mkNoteElem p).tag = "note" from rfl]
      decide
    · intro c hc
      obtain ⟨p, hp, rfl⟩ := List.mem_map.mp hc
      show (createVariant p.1 p.2).tag ≠ "prop"
      rw [show (createVariant p.1 p.2).tag = "tuv" from rfl]
      decide
  have hV : (createTU u).findAll "tuv"
      = u.variants.map (fun kv => createVariant kv.1 kv.2) := by
    unfold XElem.findAll
    have hch : (createTU u).children
        = u.notes.map mkNoteElem ++ u.properties.map mkPropElem
          ++ u.variants.map (fun kv => createVariant kv.1 kv.2) := by
      simp [createTU, XElem.children]
    rw [hch, List.filter_append, List.filter_append]
    rw [List.filter_eq_nil_iff.mpr (fun c hc => by
          obtain ⟨p, hp, rfl⟩ := List.mem_map.mp hc
          show ¬(decide ((mkNoteElem p).tag = "tuv") = true)
          rw [show (mkNoteElem p).tag = "note" from rfl]
          decide)]
    rw [List.filter_eq_nil_iff.mpr (fun c hc => by
          obtain ⟨p, hp, rfl⟩ := List.mem_map.mp hc
          show ¬(decide ((mkPropElem p).tag = "tuv") = true)
          rw [show (mkPropElem p).tag = "prop" from rfl]
          decide)]
    rw [filter_tag_map_const (fun kv => createVariant kv.1 kv.2) "tuv"
          (fun x => rfl) u.variants "tuv", if_pos rfl]
    simp
  unfold parseSingleUnit
  rw [hattrs, htv, hN, hP, hV,
      variantsFold u.variants [] hvc hvnd (by simp)]
  rw [List.nil_append, ← hm]

theorem parseHeaderElem_createHeader (hinfo : List (String × HVal))
    (hc : CanonHeader hinfo) : parseHeaderElem (createHeader hinfo) = hinfo := by
  obtain ⟨strs, ns, ps, heq, hkeys, hnd, hns, hpnd, hpv⟩ := hc
  have hsn : ∀ kv ∈ strs.map (fun kv => (kv.1, HVal.str kv.2)), kv.1 ≠ "notes" := by
    intro kv hkv
    obtain ⟨p, hp, rfl⟩ := List.mem_map.mp hkv
    exact (hkeys p hp).1
  have hsp : ∀ kv ∈ strs.map (fun kv => (kv.1, HVal.str kv.2)),
      kv.1 ≠ "properties" := by
    intro kv hkv
    obtain ⟨p, hp, rfl⟩ := List.mem_map.mp hkv
    exact (hkeys p hp).2
  have hattrs : (createHeader hinfo).attrs = strs := by
    simp only [createHeader, XElem.attrs, heq, List.foldl_append]
    rw [npFold strs [] hkeys hnd (by simp)]
    by_cases h1 : ns = [] <;> by_cases h2 : ps = [] <;> simp [h1, h2]
  have hgn : dget hinfo "notes"
      = (if ns = [] then none else some (HVal.notes ns)) := by
    rw [heq, List.append_assoc, dget_append_right _ _ _ hsn]
    by_cases h1 : ns = []
    · rw [if_pos h1, if_pos h1]
      simp only [List.nil_append]
      by_cases h2 : ps = []
      · rw [if_pos h2]; rfl
      · rw [if_neg h2, dget_cons_ne _ _ _ _ (by decide)]
        rfl
    · rw [if_neg h1, if_neg h1, List.cons_append, dget_cons_self]
  have hgp : dget hinfo "properties"
      = (if ps = [] then none else some (HVal.props ps)) := by
    rw [heq, List.append_assoc, dget_append_right _ _ _ hsp]
    by_cases h1 : ns = []
    · rw [if_pos h1]
      simp only [List.nil_append]
      by_cases h2 : ps = []
      · rw [if_pos h2, if_pos h2]; rfl
      · rw [if_neg h2, if_neg h2, dget_cons_self]
    · rw [if_neg h1, List.cons_append, dget_cons_ne _ _ _ _ (by decide)]
      by_cases h2 : ps = []
      · rw [if_pos h2, if_pos h2]
        rfl
      · rw [if_neg h2, if_neg h2]
        simp only [List.nil_append]
        rw [dget_cons_self]
  have hch : (createHeader hinfo).children
      = ns.map mkNoteElem ++ ps.map mkPropElem := by
    simp only [createHeader, XElem.children, hgn, hgp]
    by_cases h1 : ns = [] <;> by_cases h2 : ps = [] <;>
      simp [h1, h2, iterNoteVal, iterPropVal]
  have hN : noteTexts (createHeader hinfo) = ns := by
    refine noteTexts_concat _ [] (ps.map mkPropElem) ns ?_ (by simp) ?_ hns
    · rw [hch]; simp
    · intro c hc
      obtain ⟨p, hp, rfl⟩ := List.mem_map.mp hc
      show (mkPropElem p).tag ≠ "note"
      rw [show (mkPropElem p).tag = "prop" from rfl]
      decide
  have hP : propsDict (createHeader hinfo) = ps := by
    refine propsDict_concat _ (ns.map mkNoteElem) [] ps ?_ ?_ (by simp) hpv hpnd
    · rw [hch]; simp
    · intro c hc
      obtain ⟨p, hp, rfl⟩ := List.mem_map.mp hc
      show (mkNoteElem p).tag ≠ "prop"
      rw [show (mkNoteElem p).tag = "note" from rfl]
      decide
  simp only [parseHeaderElem, hattrs, hN, hP]
  rw [heq]
  by_cases h1 : ns = []
  · by_cases h2 : ps = []
    · simp [h1, h2]
    · rw [if_pos h1, if_neg h2,
          dinsert_eq_append _ _ _ hsp]
      simp [h1, h2]
  · by_cases h2 : ps = []
    · rw [if_neg h1, if_pos h2,
          dinsert_eq_append _ _ _ hsn]
      simp [h1, h2]
    · rw [if_neg h1, if_neg h2,
          dinsert_eq_append _ _ _ hsn,
          dinsert_eq_append _ _ _ ?_]
      · simp [h1, h2]
      · intro kv hkv
        rcases List.mem_append.mp hkv with hkv | hkv
        · exact hsp kv hkv
        · rw [List.mem_singleton.mp hkv]
          show ("notes" : String) ≠ "properties"
          decide

/-- C1 (amended): for every canonical document — the shape parse itself
produces and the editor maintains between saves: stripped variant texts,
non-empty notes and property values, duplicate-free keys, `modified`
flags down, attribute dicts consistent with `tuid`/language, header
`notes`/`properties` entries in their parse positions — writing and
re-parsing returns the document exactly (hence also up to
mapping-iteration order). -/
theorem parse_write_roundtrip (d : TMXDoc) (hd : CanonDoc d) :
    parseDoc (writeDoc d) = d := by
  obtain ⟨hh, hu⟩ := hd
  have hfh : (writeDoc d).findTag "header" = some (createHeader d.header) := rfl
  have hfb : (writeDoc d).findTag "body"
      = some (XElem.mk "body" [] "" (d.units.map createTU) "") := rfl
  have htu : tuElems (writeDoc d) = d.units.map createTU := by
    unfold tuElems
    rw [hfb]
    unfold XElem.findAll
    simp only [XElem.children]
    rw [filter_tag_map_const createTU "tu" (fun x => rfl) d.units "tu",
        if_pos rfl]
  have hunits : parseTranslationUnits (writeDoc d) = d.units := by
    unfold parseTranslationUnits
    rw [htu, List.map_map]
    conv_rhs => rw [← List.map_id d.units]
    exact List.map_congr_left
      (fun u huu => parseSingleUnit_createTU u (hu u huu))
  have hheader : parseHeaderInfo (writeDoc d) = d.header := by
    unfold parseHeaderInfo
    rw [hfh]
    exact parseHeaderElem_createHeader d.header hh
  unfold parseDoc
  rw [hheader, hunits]

/-- C1 counterexample: a document whose single variant text is `"x "` —
no inline markup anywhere — does not round-trip as the claim states: the
parser's `strip()` removes the trailing blank. -/
theorem parse_write_roundtrip_cex :
    parseDoc (writeDoc c1CexDoc) ≠ c1CexDoc := by
  decide

/-- C1 witness: the canonical example document round-trips exactly. -/
theorem parse_write_roundtrip_witness :
    parseDoc (writeDoc canonDocEx) = canonDocEx :=
  parse_write_roundtrip canonDocEx
    ⟨⟨[("srclang", "en")], ["note one"], [("creator", "me")],
      by decide, by decide, by decide, by decide, by decide, by decide⟩,
     by decide⟩
